import Mathlib

/-!
# Verification of the crd-sitemap-generator crawler (src/crawl.py)

Shallow embedding of `src/crawl.py` together with the parts of CPython's
`urllib.parse` (version 3.11) that the crawler calls.  Python strings are
Lean `String`s (lists of characters); Python exceptions are modelled with
`Except PyErr`; the `requests` transport and BeautifulSoup parser — external
collaborators per the specification — are modelled as an environment of
functions supplying, for each URL, the HTTP response and, for each HTML
body, the title element and the anchor hrefs in document order.

Modelling notes for `urllib.parse` (translated from CPython 3.11.6
`Lib/urllib/parse.py`):
* `urlsplit` lstrips WHATWG C0-control-or-space characters, removes all
  tab/CR/LF characters, splits off a scheme only when the first character
  is an ASCII letter and everything before the first colon is a scheme
  character, splits a `//`-led netloc at the first of `/?#`, raises
  `ValueError` for netlocs with mismatched square brackets, validates
  bracketed hosts, then splits fragment and query.
* the NFKC-normalization check of `_checknetloc` only concerns non-ASCII
  netlocs and is not modelled (it never raises for ASCII netlocs);
* `_check_bracketed_host` delegates to the `ipaddress` module; the IPv6 /
  IPvFuture grammar it accepts is transcribed below;
* Python `str.lower()` is applied by `urlsplit` only to runs of ASCII
  scheme characters, so an ASCII-only lowering is exact there.
-/

namespace Crawl

/-- Python exceptions that can escape the functions modelled here:
`ValueError` (raised by `urllib.parse` on invalid IPv6 URLs) and
`AttributeError` (raised by `None.strip()` when a page's title element has
no string). `requests.RequestException` never escapes `scrape_page` (it is
caught there), so it needs no constructor. -/
inductive PyErr where
  | valueError : PyErr
  | attributeError : PyErr
deriving DecidableEq, Repr

/-! ## Character classes -/

/-- WHATWG C0-control-or-space characters (codepoints 0x00–0x20), the set
lstripped from a URL by `urlsplit`. -/
def isC0OrSpace (c : Char) : Bool := c.toNat ≤ 0x20

/-- The unsafe URL bytes removed everywhere by `urlsplit`:
`_UNSAFE_URL_BYTES_TO_REMOVE = ['\t', '\r', '\n']`. -/
def isUnsafeByte (c : Char) : Bool := c = '\t' ∨ c = '\r' ∨ c = '\n'

/-- ASCII uppercase letter (codepoint view, as Python's `str.isascii()`
and `str.isalpha()` combine on ASCII). -/
def isAsciiUpperCh (c : Char) : Bool := 65 ≤ c.toNat ∧ c.toNat ≤ 90

/-- ASCII lowercase letter. -/
def isAsciiLowerCh (c : Char) : Bool := 97 ≤ c.toNat ∧ c.toNat ≤ 122

/-- ASCII letter: `url[0].isascii() and url[0].isalpha()`. -/
def isAsciiAlphaCh (c : Char) : Bool := isAsciiUpperCh c ∨ isAsciiLowerCh c

/-- ASCII decimal digit. -/
def isDigitCh (c : Char) : Bool := 48 ≤ c.toNat ∧ c.toNat ≤ 57

/-- `scheme_chars` of `urllib.parse`: ASCII letters, digits, `+`, `-`, `.`. -/
def isSchemeChar (c : Char) : Bool :=
  isAsciiAlphaCh c ∨ isDigitCh c ∨ c = '+' ∨ c = '-' ∨ c = '.'

/-- ASCII lowering; exact for Python `str.lower()` on ASCII input, which is
the only place `urlsplit` lowers (a validated run of scheme characters). -/
def lowerChar (c : Char) : Char :=
  if c = 'A' then 'a' else if c = 'B' then 'b' else if c = 'C' then 'c'
  else if c = 'D' then 'd' else if c = 'E' then 'e' else if c = 'F' then 'f'
  else if c = 'G' then 'g' else if c = 'H' then 'h' else if c = 'I' then 'i'
  else if c = 'J' then 'j' else if c = 'K' then 'k' else if c = 'L' then 'l'
  else if c = 'M' then 'm' else if c = 'N' then 'n' else if c = 'O' then 'o'
  else if c = 'P' then 'p' else if c = 'Q' then 'q' else if c = 'R' then 'r'
  else if c = 'S' then 's' else if c = 'T' then 't' else if c = 'U' then 'u'
  else if c = 'V' then 'v' else if c = 'W' then 'w' else if c = 'X' then 'x'
  else if c = 'Y' then 'y' else if c = 'Z' then 'z' else c

/-- The ASCII uppercase letters (the domain on which `lowerChar` acts). -/
def upperChars : List Char :=
  ['A', 'B', 'C', 'D', 'E', 'F', 'G', 'H', 'I', 'J', 'K', 'L', 'M',
   'N', 'O', 'P', 'Q', 'R', 'S', 'T', 'U', 'V', 'W', 'X', 'Y', 'Z']

/-- Unicode whitespace stripped by Python `str.strip()` (the exhaustive set
of codepoints for which Python's `str.isspace` holds). -/
def isPySpace (c : Char) : Bool :=
  c.toNat ∈ [9, 10, 11, 12, 13, 28, 29, 30, 31, 32, 0x85, 0xa0, 0x1680,
    0x2000, 0x2001, 0x2002, 0x2003, 0x2004, 0x2005, 0x2006, 0x2007, 0x2008,
    0x2009, 0x200a, 0x2028, 0x2029, 0x202f, 0x205f, 0x3000]

/-- Hexadecimal digit as accepted by `ipaddress` hextets. -/
def isHexChar (c : Char) : Bool :=
  isDigitCh c ∨ (97 ≤ c.toNat ∧ c.toNat ≤ 102) ∨ (65 ≤ c.toNat ∧ c.toNat ≤ 70)

/-! ## List-of-characters helpers (Python string primitives) -/

/-- Split at the first occurrence of `c`: returns the part before it and,
when `c` occurs, the part after it (`str.split(c, 1)` / `str.partition`). -/
def breakAt (c : Char) : List Char → List Char × Option (List Char)
  | [] => ([], none)
  | x :: xs =>
    if x = c then ([], some xs)
    else
      let r := breakAt c xs
      (x :: r.1, r.2)

/-- Take the longest initial run of characters not in `ds` and return it
with the remainder (which, if nonempty, starts with a delimiter); this is
`_splitnetloc`'s "up to the earliest of the delimiters" computation. -/
def spanNotIn (ds : List Char) : List Char → List Char × List Char
  | [] => ([], [])
  | x :: xs =>
    if x ∈ ds then ([], x :: xs)
    else
      let r := spanNotIn ds xs
      (x :: r.1, r.2)

/-- Python `str.rstrip("/")`: remove every trailing `/`. -/
def rstripSlash : List Char → List Char
  | [] => []
  | x :: xs =>
    match rstripSlash xs with
    | [] => if x = '/' then [] else [x]
    | r => x :: r

/-- Python `str.split(sep)` for a one-character separator: full split,
`"".split(c) = [""]`, empty pieces kept. -/
def pySplit (c : Char) : List Char → List (List Char)
  | [] => [[]]
  | x :: xs =>
    if x = c then [] :: pySplit c xs
    else
      match pySplit c xs with
      | [] => [[x]]
      | h :: t => (x :: h) :: t

/-- `'/'.join(parts)` (written for an arbitrary separator character). -/
def pyJoin (c : Char) : List (List Char) → List Char
  | [] => []
  | [p] => p
  | p :: ps => p ++ c :: pyJoin c ps

/-- Python `str.strip()` with no argument: strip Unicode whitespace from
both ends. -/
def pyStripList (l : List Char) : List Char :=
  ((l.dropWhile isPySpace).reverse.dropWhile isPySpace).reverse

/-- Python `str.strip()` on a `String`. -/
def pyStrip (s : String) : String := String.mk (pyStripList s.data)

/-- Membership of one string in another (Python's `needle in haystack`). -/
def listContainsSub (needle : List Char) : List Char → Bool
  | [] => decide (needle = [])
  | x :: xs => needle.isPrefixOf (x :: xs) || listContainsSub needle xs

/-- Python `needle in haystack` on `String`s. -/
def containsSub (haystack needle : String) : Bool :=
  listContainsSub needle.data haystack.data

/-- Python `str.startswith(p)` for a single candidate. -/
def pyStartsWith (s p : String) : Bool := p.data.isPrefixOf s.data

/-! ## The `ipaddress` validation used for bracketed hosts -/

/-- One dotted-quad octet per `ipaddress.IPv4Address._parse_octet`
(CPython 3.11): 1–3 ASCII decimal digits, no leading zero except `"0"`
itself, value at most 255. -/
def validOctet (l : List Char) : Bool :=
  match l with
  | [] => false
  | d :: ds =>
    (d :: ds).all isDigitCh ∧ (d :: ds).length ≤ 3 ∧
    (d = '0' → ds = []) ∧
    ((d :: ds).foldl (fun n c => n * 10 + (c.toNat - 48)) 0 ≤ 255)

/-- `ipaddress.IPv4Address` textual validity: exactly four valid octets
separated by dots. -/
def validIPv4 (l : List Char) : Bool :=
  match pySplit '.' l with
  | [a, b, c, d] => validOctet a ∧ validOctet b ∧ validOctet c ∧ validOctet d
  | _ => false

/-- One IPv6 hextet per `ipaddress.IPv6Address._parse_hextet`: 1–4 hex
digits (`int('', 16)` raises, so empty is invalid). -/
def validHextet (l : List Char) : Bool :=
  l ≠ [] ∧ l.length ≤ 4 ∧ l.all isHexChar

/-- Core of `ipaddress.IPv6Address._ip_int_from_string` (CPython 3.11),
with an IPv4-mapped tail already replaced by two synthetic hextets by the
caller: group-count and `::` placement rules. `parts` is the colon-split
list after the optional IPv4 replacement. -/
def validV6Groups (parts : List (List Char)) : Bool :=
  if parts.length > 9 then false
  else
    -- indices 1 .. len-2 that are empty (candidate `::` positions)
    let innerEmpties := (List.range parts.length).filter
      (fun i => 0 < i ∧ i < parts.length - 1 ∧ parts.getD i [' '] = [])
    match innerEmpties with
    | [] =>
      parts.length = 8 ∧ parts.headD [] ≠ [] ∧ parts.getLastD [] ≠ [] ∧
      parts.all validHextet
    | [i] =>
      let partsHi := if parts.headD [] = [] then
          if i - 1 = 0 then some 0 else none
        else some i
      let partsLo := if parts.getLastD [] = [] then
          if parts.length - i - 2 = 0 then some 0 else none
        else some (parts.length - i - 1)
      match partsHi, partsLo with
      | some hi, some lo =>
        (8 - (hi + lo) ≥ 1 ∧ hi + lo ≤ 8) ∧
        ((parts.take hi).all validHextet) ∧
        ((parts.drop (parts.length - lo)).all validHextet)
      | _, _ => false
    | _ => false

/-- `ipaddress.IPv6Address` textual validity (including an optional
nonempty `%scope` suffix, as accepted by `ipaddress.ip_address`). -/
def validIPv6 (l : List Char) : Bool :=
  -- _split_scope_id: partition on '%'; a present separator needs a
  -- nonempty scope with no further '%'.
  let (addr, scope) := breakAt '%' l
  let scopeOk : Bool :=
    match scope with
    | none => true
    | some s => s ≠ [] ∧ '%' ∉ s
  scopeOk &&
  (let parts := pySplit ':' addr
   if parts.length < 3 then false
   else
     let last := parts.getLastD []
     if '.' ∈ last then
       validIPv4 last && validV6Groups (parts.dropLast ++ [['0'], ['0']])
     else
       validV6Groups parts)

/-- `urllib.parse._check_bracketed_host` (CPython 3.11): a bracketed host
must be an IPvFuture literal (`v` + hex digits + `.` + at least one more
character) or a textually valid IPv6 address; a bare IPv4 address or
anything else raises `ValueError`. -/
def validBracketedHost (l : List Char) : Bool :=
  match l with
  | 'v' :: rest =>
    let (hexRun, dotRest) := rest.span isHexChar
    match dotRest with
    | '.' :: tail => hexRun ≠ [] ∧ tail ≠ []
    | _ => false
  | _ => validIPv6 l

/-! ## `urllib.parse`: splitting -/

/-- Result of `urlsplit` (a Python `SplitResult`). -/
structure SplitResult where
  scheme : String
  netloc : String
  path : String
  query : String
  fragment : String
deriving DecidableEq, Repr

/-- Result of `urlparse` (a Python `ParseResult`). -/
structure ParseResult where
  scheme : String
  netloc : String
  path : String
  params : String
  query : String
  fragment : String
deriving DecidableEq, Repr

/-- `uses_relative` from `urllib.parse` (CPython 3.11). -/
def uses_relative : List String :=
  ["", "ftp", "http", "gopher", "nntp", "imap", "wais", "file", "https",
   "shttp", "mms", "prospero", "rtsp", "rtsps", "rtspu", "sftp", "svn",
   "svn+ssh", "ws", "wss"]

/-- `uses_netloc` from `urllib.parse` (CPython 3.11). -/
def uses_netloc : List String :=
  ["", "ftp", "http", "gopher", "nntp", "telnet", "imap", "wais", "file",
   "mms", "https", "shttp", "snews", "prospero", "rtsp", "rtsps", "rtspu",
   "rsync", "svn", "svn+ssh", "sftp", "nfs", "git", "git+ssh", "ws", "wss"]

/-- `uses_params` from `urllib.parse` (CPython 3.11). -/
def uses_params : List String :=
  ["", "ftp", "hdl", "prospero", "http", "imap", "https", "shttp", "rtsp",
   "rtsps", "rtspu", "sip", "sips", "mms", "sftp", "tel"]

/-- The cleaning `urlsplit` applies to its `url` argument: lstrip WHATWG
C0-control-or-space, then remove every tab, CR and LF. -/
def cleanUrl (l : List Char) : List Char :=
  (l.dropWhile isC0OrSpace).filter (fun c => ¬ isUnsafeByte c)

/-- The cleaning `urlsplit` applies to its `scheme` (default) argument:
strip C0-control-or-space from both ends, then remove tab/CR/LF. -/
def cleanScheme (l : List Char) : List Char :=
  (((l.dropWhile isC0OrSpace).reverse.dropWhile isC0OrSpace).reverse).filter
    (fun c => ¬ isUnsafeByte c)

/-- The scheme test of `urlsplit`: when the cleaned URL has a colon at a
positive index, starts with an ASCII letter, and everything before the
colon is a scheme character, return the lowercased scheme and the rest;
otherwise `none`. -/
def splitSchemeCore (l : List Char) : Option (List Char × List Char) :=
  match breakAt ':' l with
  | (_, none) => none
  | (pre, some rest) =>
    match pre with
    | [] => none
    | c0 :: _ =>
      if isAsciiAlphaCh c0 ∧ pre.all isSchemeChar then some (pre.map lowerChar, rest)
      else none

/-- `_splitnetloc(url, 2)` applied to the part after the leading `//`:
the netloc runs up to the earliest of `/`, `?`, `#`. -/
def splitNetlocCore (l : List Char) : List Char × List Char :=
  spanNotIn ['/', '?', '#'] l

/-- The netloc validation of `urlsplit`: mismatched square brackets raise
`ValueError`; a netloc containing both brackets must enclose a valid
bracketed host (text between the first `[` and the first following `]`).
The NFKC check of `_checknetloc` never raises for ASCII netlocs and is not
modelled. -/
def netlocOk (netloc : List Char) : Bool :=
  if '[' ∈ netloc ∧ ']' ∉ netloc then false
  else if ']' ∈ netloc ∧ '[' ∉ netloc then false
  else if '[' ∈ netloc ∧ ']' ∈ netloc then
    -- netloc.partition('[')[2].partition(']')[0]
    let afterOpen := (breakAt '[' netloc).2.getD []
    let host := (breakAt ']' afterOpen).1
    validBracketedHost host
  else true

/-- The scheme stage of `urlsplit`: the found (lowercased) scheme with the
rest, or the (cleaned) default scheme with the whole input. -/
def schemeStage (l dflt : List Char) : List Char × List Char :=
  match splitSchemeCore l with
  | some r => r
  | none => (dflt, l)

/-- The netloc stage of `urlsplit`: `if url[:2] == '//'` take the netloc
up to the earliest of `/?#`, else no netloc. -/
def netlocStage (l : List Char) : List Char × List Char :=
  match l with
  | '/' :: '/' :: rest => splitNetlocCore rest
  | _ => ([], l)

/-- The fragment stage: split at the first `#` (fragment second). -/
def fragStage (l : List Char) : List Char × List Char :=
  ((breakAt '#' l).1, ((breakAt '#' l).2).getD [])

/-- The query stage: split at the first `?` (query second). -/
def queryStage (l : List Char) : List Char × List Char :=
  ((breakAt '?' l).1, ((breakAt '?' l).2).getD [])

/-- `urllib.parse.urlsplit(url, scheme=default, allow_fragments=True)`
(CPython 3.11.6), returning `Except` in place of raising `ValueError`. -/
def urlsplit (url : String) (default : String) : Except PyErr SplitResult :=
  if netlocOk (netlocStage (schemeStage (cleanUrl url.data) (cleanScheme default.data)).2).1 then
    .ok ⟨String.mk (schemeStage (cleanUrl url.data) (cleanScheme default.data)).1,
         String.mk (netlocStage (schemeStage (cleanUrl url.data) (cleanScheme default.data)).2).1,
         String.mk (queryStage (fragStage
           (netlocStage (schemeStage (cleanUrl url.data) (cleanScheme default.data)).2).2).1).1,
         String.mk (queryStage (fragStage
           (netlocStage (schemeStage (cleanUrl url.data) (cleanScheme default.data)).2).2).1).2,
         String.mk (fragStage
           (netlocStage (schemeStage (cleanUrl url.data) (cleanScheme default.data)).2).2).2⟩
  else .error .valueError

/-- `_splitparams(url)`: when the path contains a slash, split at the
first `;` at or after the last slash (if any); otherwise split at the
first `;`. Only called when `;` is present. -/
def splitParamsCore (l : List Char) : List Char × List Char :=
  if '/' ∈ l then
    match (breakAt '/' l.reverse).2 with
    | some revFront =>
      -- the part after the last '/' is the reverse of (breakAt '/' l.reverse).1
      match (breakAt ';' ((breakAt '/' l.reverse).1).reverse).2 with
      | none => (l, [])
      | some post =>
        (revFront.reverse ++ '/' :: (breakAt ';' ((breakAt '/' l.reverse).1).reverse).1,
         post)
    | none => (l, [])   -- unreachable: '/' ∈ l
  else
    match (breakAt ';' l).2 with
    | some post => ((breakAt ';' l).1, post)
    | none => ((breakAt ';' l).1, [])   -- unreachable: only called when ';' ∈ l

/-- `urllib.parse.urlparse(url, scheme=default, allow_fragments=True)`:
`urlsplit` plus the params split, applied only for schemes in
`uses_params`. -/
def urlparse (url : String) (default : String) : Except PyErr ParseResult :=
  match urlsplit url default with
  | .error e => .error e
  | .ok s =>
    if s.scheme ∈ uses_params ∧ ';' ∈ s.path.data then
      .ok ⟨s.scheme, s.netloc, String.mk (splitParamsCore s.path.data).1,
           String.mk (splitParamsCore s.path.data).2, s.query, s.fragment⟩
    else
      .ok ⟨s.scheme, s.netloc, s.path, "", s.query, s.fragment⟩

/-- Well-formedness facts that hold of every successful `urlparse` result
(with the empty default scheme): the scheme is empty or a lowered run of
scheme characters led by an ASCII letter; the netloc has no `/?#`, passed
its checks; path, params and query avoid the delimiters split off after
them; nothing contains tab/CR/LF; a nonempty netloc forces an empty or
`/`-led path; and params are only split for `uses_params` schemes. -/
def ParsedWF (p : ParseResult) : Prop :=
  (p.scheme.data = [] ∨
    ∃ c0 t, p.scheme.data = c0 :: t ∧ isAsciiAlphaCh c0 = true ∧
      (c0 :: t).all isSchemeChar = true ∧ (c0 :: t).map lowerChar = c0 :: t) ∧
  (∀ c ∈ p.netloc.data, c ∉ (['/', '?', '#'] : List Char) ∧ isUnsafeByte c = false) ∧
  netlocOk p.netloc.data = true ∧
  (∀ c ∈ p.path.data, c ≠ '#' ∧ c ≠ '?' ∧ isUnsafeByte c = false) ∧
  (∀ c ∈ p.params.data, c ≠ '#' ∧ c ≠ '?' ∧ c ≠ '/' ∧ isUnsafeByte c = false) ∧
  (∀ c ∈ p.query.data, c ≠ '#' ∧ isUnsafeByte c = false) ∧
  (p.netloc.data ≠ [] → p.path.data = [] ∨ ∃ t, p.path.data = '/' :: t) ∧
  (p.params.data ≠ [] → p.scheme ∈ uses_params)

/-! ## `urllib.parse`: unsplitting -/

/-- `urllib.parse.urlunsplit` (CPython 3.11.6). -/
def urlunsplit (r : SplitResult) : String :=
  let url0 := r.path.data
  let url1 :=
    if r.netloc.data ≠ [] ∨
       (r.scheme.data ≠ [] ∧ r.scheme ∈ uses_netloc ∧ url0.take 2 ≠ ['/', '/']) then
      let u := if url0 ≠ [] ∧ url0.take 1 ≠ ['/'] then '/' :: url0 else url0
      '/' :: '/' :: r.netloc.data ++ u
    else url0
  let url2 := if r.scheme.data ≠ [] then r.scheme.data ++ ':' :: url1 else url1
  let url3 := if r.query.data ≠ [] then url2 ++ '?' :: r.query.data else url2
  let url4 := if r.fragment.data ≠ [] then url3 ++ '#' :: r.fragment.data else url3
  String.mk url4

/-- `urllib.parse.urlunparse`: rejoin `path;params`, then `urlunsplit`.
`ParseResult.geturl()` is exactly this function applied to the result. -/
def urlunparse (r : ParseResult) : String :=
  let url := if r.params.data ≠ [] then r.path.data ++ ';' :: r.params.data
             else r.path.data
  urlunsplit ⟨r.scheme, r.netloc, String.mk url, r.query, r.fragment⟩

/-! ## `urllib.parse.urljoin` -/

/-- The slice assignment `segments[1:-1] = filter(None, segments[1:-1])`:
keep the first and last element, drop empty segments strictly between. -/
def filterMidTail : List (List Char) → List (List Char)
  | [] => []
  | [z] => [z]
  | y :: ys => if y = [] then filterMidTail ys else y :: filterMidTail ys

/-- Keep the head, then `filterMidTail` on the remainder. -/
def keepEndsFilterMid (l : List (List Char)) : List (List Char) :=
  match l with
  | [] => []
  | a :: rest => a :: filterMidTail rest

/-- The `..`/`.` resolution loop of `urljoin`: `..` pops (ignoring an
underflow), `.` is dropped, anything else is appended. -/
def resolveSegments (segments : List (List Char)) : List (List Char) :=
  segments.foldl
    (fun acc seg =>
      if seg = ['.', '.'] then acc.dropLast
      else if seg = ['.'] then acc
      else acc ++ [seg])
    []

/-- `urllib.parse.urljoin(base, url)` (CPython 3.11.6), with `ValueError`
from the two inner `urlparse` calls surfaced via `Except`. -/
def urljoin (base url : String) : Except PyErr String :=
  if base = "" then .ok url
  else if url = "" then .ok base
  else
    match urlparse base ("") with
    | .error e => .error e
    | .ok b =>
      match urlparse url b.scheme with
      | .error e => .error e
      | .ok p =>
        if p.scheme ≠ b.scheme ∨ p.scheme ∉ uses_relative then .ok url
        else if p.scheme ∈ uses_netloc ∧ p.netloc ≠ "" then .ok (urlunparse p)
        else
          let netloc := if p.scheme ∈ uses_netloc then b.netloc else p.netloc
          if p.path = "" ∧ p.params = "" then
            let query := if p.query = "" then b.query else p.query
            .ok (urlunparse ⟨p.scheme, netloc, b.path, b.params, query, p.fragment⟩)
          else
            let baseParts0 := pySplit '/' b.path.data
            let baseParts :=
              if baseParts0.getLastD [] ≠ [] then baseParts0.dropLast else baseParts0
            let segments :=
              if p.path.data.take 1 = ['/'] then pySplit '/' p.path.data
              else keepEndsFilterMid (baseParts ++ pySplit '/' p.path.data)
            let resolved0 := resolveSegments segments
            let resolved :=
              if segments.getLastD [] = ['.'] ∨ segments.getLastD [] = ['.', '.'] then
                resolved0 ++ [[]]
              else resolved0
            let joined := pyJoin '/' resolved
            let path := if joined = [] then ['/'] else joined
            .ok (urlunparse ⟨p.scheme, netloc, String.mk path, p.params, p.query, p.fragment⟩)

/-! ## The crawler's pure helpers (src/crawl.py lines 30–59) -/

/-- The path canonicalization inside `normalize_url`:
`parsed.path.rstrip("/") or "/"`. -/
def rstripSlashOrRoot (l : List Char) : List Char :=
  match rstripSlash l with
  | [] => ['/']
  | r => r

/-- `normalize_url` (src/crawl.py lines 30–34): strip fragment and
trailing slashes for deduplication.  `urlparse`, replace the path by
`path.rstrip("/") or "/"`, drop the fragment, keep scheme, netloc, params
and query, and reassemble with `geturl()`. -/
def normalize_url (url : String) : Except PyErr String :=
  match urlparse url ("") with
  | .error e => .error e
  | .ok parsed =>
    let path := String.mk (rstripSlashOrRoot parsed.path.data)
    .ok (urlunparse ⟨parsed.scheme, parsed.netloc, path, parsed.params, parsed.query, ""⟩)

/-- `is_internal` (src/crawl.py lines 37–40): the URL belongs to the same
domain iff its netloc equals `base_netloc` or is empty. -/
def is_internal (url base_netloc : String) : Except PyErr Bool :=
  match urlparse url ("") with
  | .error e => .error e
  | .ok p => .ok (p.netloc = base_netloc ∨ p.netloc = "")

/-- The skip test of `get_links`:
`href.startswith(("#", "mailto:", "tel:", "javascript:"))`. -/
def isSkippedHref (href : String) : Bool :=
  pyStartsWith href ("#") ∨ pyStartsWith href ("mailto:") ∨
  pyStartsWith href ("tel:") ∨ pyStartsWith href ("javascript:")

/-- `get_links` (src/crawl.py lines 43–59) applied to the list of href
attribute values of the page's anchors (`soup.find_all("a", href=True)`,
in document order): strip each href, skip anchors/mailto/tel/javascript,
resolve against `page_url`, keep only http/https, classify with
`is_internal`; internal links are normalized, external kept as-is.
Exceptions escaping `urljoin`/`urlparse` propagate (nothing catches them
in the source). -/
def get_links (hrefs : List String) (page_url base_netloc : String) :
    Except PyErr (List String × List String) :=
  match hrefs with
  | [] => .ok ([], [])
  | h :: rest =>
    let href := pyStrip h
    if isSkippedHref href then get_links rest page_url base_netloc
    else
      match urljoin page_url href with
      | .error e => .error e
      | .ok absolute =>
        match urlparse absolute ("") with
        | .error e => .error e
        | .ok pa =>
          if pa.scheme ≠ "http" ∧ pa.scheme ≠ "https" then
            get_links rest page_url base_netloc
          else
            match is_internal absolute base_netloc with
            | .error e => .error e
            | .ok b =>
              if b then
                match normalize_url absolute with
                | .error e => .error e
                | .ok n =>
                  match get_links rest page_url base_netloc with
                  | .error e => .error e
                  | .ok r => .ok (n :: r.1, r.2)
              else
                match get_links rest page_url base_netloc with
                | .error e => .error e
                | .ok r => .ok (r.1, absolute :: r.2)

/-! ## The crawl engine (src/crawl.py lines 62–123) -/

/-- Values stored in a page record (a Python dict). -/
inductive PyVal where
  | str (s : String)
  | intv (n : Nat)
  | strList (l : List String)
deriving DecidableEq, Repr

/-- A Python dict with insertion order, as an association list. -/
abbrev PyDict := List (String × PyVal)

/-- An HTTP response from the `requests` session: status code, the
optional `Content-Type` header, and the body text. -/
structure HttpResp where
  status : Nat
  contentType : Option String
  text : String
deriving DecidableEq, Repr

/-- What BeautifulSoup exposes of a parsed page: `soup.title` is `None`
when there is no title element, and `soup.title.string` is `None` when the
title element has no single string child (both modelled by `Option`);
`hrefs` lists the href attribute of every anchor carrying one, in document
order. -/
structure PageDoc where
  title : Option (Option String)
  hrefs : List String
deriving DecidableEq, Repr

/-- The external collaborators of one crawl run: the HTTP transport
(`none` models `requests` raising a `RequestException`), the HTML parser,
and the wall clock used for `scraped_at`. -/
structure Env where
  fetch : String → Option HttpResp
  parse : String → PageDoc
  now : String

/-- Dict lookup (`data["html"]`); total, returning an empty string for a
missing or non-string value (the key is always present by construction in
the crawl loop). -/
def lookupStr (d : PyDict) (k : String) : String :=
  match d.find? (fun kv => kv.1 = k) with
  | some (_, .str s) => s
  | _ => ""

/-- `sorted(set(xs))` for a list of strings: deduplicate, then sort in
ascending lexicographic order. -/
def pySortedSet (xs : List String) : List String :=
  (xs.dedup).insertionSort (· ≤ ·)

/-- The metadata dict built by `scrape_page` on success, keys in insertion
order: url, title, status_code, content_type, html, scraped_at. -/
def pageDict (url title : String) (status : Nat) (ct html sa : String) : PyDict :=
  [("url", PyVal.str url), ("title", PyVal.str title),
   ("status_code", PyVal.intv status), ("content_type", PyVal.str ct),
   ("html", PyVal.str html), ("scraped_at", PyVal.str sa)]

/-- `scrape_page` (src/crawl.py lines 62–85): fetch a URL and return the
metadata dict, or `None` for a `RequestException` (including the
`raise_for_status` 4xx/5xx `HTTPError`) or a non-HTML content type.  The
title is `soup.title.string.strip() if soup.title else ""`; when
`soup.title` exists but `soup.title.string` is `None`, `None.strip()`
raises an `AttributeError` that nothing catches. -/
def scrape_page (env : Env) (url : String) : Except PyErr (Option PyDict) :=
  match env.fetch url with
  | none => .ok none
  | some resp =>
    if 400 ≤ resp.status ∧ resp.status < 600 then .ok none
    else if ¬ containsSub (resp.contentType.getD "") ("html") then .ok none
    else
      match (env.parse resp.text).title with
      | none =>
        .ok (some (pageDict url ("") resp.status (resp.contentType.getD "") resp.text env.now))
      | some none => .error .attributeError
      | some (some t) =>
        .ok (some (pageDict url (pyStrip t) resp.status (resp.contentType.getD "") resp.text env.now))

/-- The mutable state of the crawl loop: the `visited` set (a list of
distinct members, Python-set insertion), the FIFO `queue`, and the
accumulated `results`. -/
structure CrawlState where
  visited : List String
  queue : List String
  results : List PyDict
deriving DecidableEq, Repr

/-- The enqueue loop at src/crawl.py lines 116–118: each internal link is
appended to the live queue only if it is in neither `visited` nor the
queue. -/
def enqueueNew (visited queue links : List String) : List String :=
  links.foldl (fun q link => if link ∈ visited ∨ link ∈ q then q else q ++ [link]) queue

/-- One iteration of the `while queue:` loop (src/crawl.py lines 95–121):
pop the head; skip it if already visited; otherwise mark it visited,
scrape it, and on success append the record (without the `html` key, with
`external_links` set to the sorted deduplicated externals) and enqueue the
new internal links.  On an empty queue the state is returned unchanged
(the loop has terminated).  In the source `visited.add(url)` runs before
the fetch; writing the insertion in each outcome branch is observationally
identical because `scrape_page` never reads `visited` and an uncaught
exception discards the whole run together with its state. -/
def crawl_step (env : Env) (base_netloc : String) (s : CrawlState) :
    Except PyErr CrawlState :=
  match s.queue with
  | [] => .ok s
  | url :: rest =>
    if url ∈ s.visited then .ok { s with queue := rest }
    else
      match scrape_page env url with
      | .error e => .error e
      | .ok none => .ok ⟨s.visited.insert url, rest, s.results⟩
      | .ok (some data) =>
        match get_links (env.parse (lookupStr data ("html"))).hrefs url base_netloc with
        | .error e => .error e
        | .ok links =>
          .ok ⟨s.visited.insert url,
               enqueueNew (s.visited.insert url) rest links.1,
               s.results ++ [data.filter (fun kv => kv.1 ≠ "html") ++
                 [("external_links", PyVal.strList (pySortedSet links.2))]]⟩

/-- The initial state of `crawl(start_url)` (src/crawl.py lines 88–92):
`base_netloc` from the raw start URL, empty `visited` and `results`, and
the queue holding the normalized start URL. -/
def crawl_init (start_url : String) : Except PyErr (String × CrawlState) :=
  match urlparse start_url ("") with
  | .error e => .error e
  | .ok p =>
    match normalize_url start_url with
    | .error e => .error e
    | .ok n => .ok (p.netloc, ⟨[], [n], []⟩)

/-- Iterate `crawl_step` a given number of times. -/
def stepN (env : Env) (base_netloc : String) : Nat → CrawlState → Except PyErr CrawlState
  | 0, s => .ok s
  | n + 1, s =>
    match crawl_step env base_netloc s with
    | .error e => .error e
    | .ok s' => stepN env base_netloc n s'

/-- The crawl state after `n` loop iterations of `crawl(start_url)`. -/
def crawl_steps (env : Env) (start_url : String) (n : Nat) : Except PyErr CrawlState :=
  match crawl_init start_url with
  | .error e => .error e
  | .ok r => stepN env r.1 n r.2

/-- The whole of `crawl(start_url)` under a fuel bound: when the queue is
exhausted within `fuel` iterations, the returned results; `none` when the
fuel ran out before termination. -/
def crawl_run (env : Env) (start_url : String) (fuel : Nat) :
    Except PyErr (Option (List PyDict)) :=
  match crawl_steps env start_url fuel with
  | .error e => .error e
  | .ok s => .ok (if s.queue = [] then some s.results else none)

/-! ## Spec-side definitions used to state claims -/

/-- Modelled from the spec: "path with at most one trailing slash
stripped" (claim C2's path rule, §4.1 of the spec). -/
def stripOneTrailingSlash (l : List Char) : List Char :=
  if l.getLast? = some '/' then l.dropLast else l

/-- Modelled from the spec: `"/"` if the path is empty after stripping one
trailing slash, otherwise the path with at most one trailing slash
stripped (§4.1). -/
def specPathRule (l : List Char) : List Char :=
  match stripOneTrailingSlash l with
  | [] => ['/']
  | r => r

/-- Equality of `Except` results is decidable when both components are. -/
instance instDecEqExcept {ε α : Type} [DecidableEq ε] [DecidableEq α] :
    DecidableEq (Except ε α) := fun a b =>
  match a, b with
  | .ok x, .ok y =>
    if h : x = y then .isTrue (by rw [h]) else .isFalse (by simp [h])
  | .error x, .error y =>
    if h : x = y then .isTrue (by rw [h]) else .isFalse (by simp [h])
  | .ok _, .error _ => .isFalse (by simp)
  | .error _, .ok _ => .isFalse (by simp)

/-- Claim C2 as stated, at one URL: the canonical string is the
reassembly of the parsed components with the fragment dropped, scheme,
host and query preserved, and the path transformed by `specPathRule`
(at most one trailing slash stripped). -/
def c2Statement (u : String) : Bool :=
  match urlparse u ("") with
  | .error _ => true
  | .ok p =>
    decide (normalize_url u =
      .ok (urlunparse ⟨p.scheme, p.netloc, String.mk (specPathRule p.path.data),
                       p.params, p.query, ""⟩))

/-- A predicate on every state reachable in a run: holds vacuously if the
run has already died with an exception. -/
def exceptHolds (P : CrawlState → Prop) : Except PyErr CrawlState → Prop
  | .error _ => True
  | .ok s => P s

/-- The shape claim C9 asserts of a record with a given `url` field:
exactly the six fields, in insertion order, with `external_links` the
sorted deduplicated external set (and hence no `html` key). -/
def recordShapeAt (r : PyDict) (url : String) : Prop :=
  ∃ title status ct sa xs,
    r = [("url", PyVal.str url), ("title", PyVal.str title),
         ("status_code", PyVal.intv status), ("content_type", PyVal.str ct),
         ("scraped_at", PyVal.str sa),
         ("external_links", PyVal.strList (pySortedSet xs))]

/-- The `url` field of a record. -/
def recordUrl (r : PyDict) : Option PyVal :=
  (r.find? (fun kv => kv.1 = "url")).map Prod.snd

/-- The master invariant of the crawl loop: the queue has no duplicates
and is disjoint from `visited`; every result record has the six-field
shape with its url in `visited`; result urls are pairwise distinct; and
there are no more results than visited URLs. -/
def StateInv (s : CrawlState) : Prop :=
  s.queue.Nodup ∧ (∀ u ∈ s.queue, u ∉ s.visited) ∧
  (∀ r ∈ s.results, ∃ url, recordShapeAt r url ∧ url ∈ s.visited) ∧
  (s.results.map recordUrl).Nodup ∧
  s.results.length ≤ s.visited.length

/-- A test environment whose transport always fails (every fetch raises a
`RequestException`) over blank pages. -/
def envAllFail : Env :=
  ⟨fun _ => none, fun _ => ⟨none, []⟩, "2025-01-01T00:00:00+00:00"⟩

/-- A test environment serving one HTML page whose title element exists
but has no string child, i.e. `soup.title.string` is `None` (as
BeautifulSoup returns for `<title></title>`). -/
def envTitleless : Env :=
  ⟨fun u =>
      if u = "https://x.com/" then some ⟨200, some ("text/html"), "<title></title>"⟩
      else none,
   fun h => if h = "<title></title>" then ⟨some none, []⟩ else ⟨none, []⟩,
   "2025-01-01T00:00:00+00:00"⟩

/-! # Theorems -/

/-! ## List and character lemmas -/

theorem breakAt_cons_self (c : Char) (xs : List Char) :
    breakAt c (c :: xs) = ([], some xs) := by
  simp [breakAt]

theorem breakAt_cons_ne (c x : Char) (xs : List Char) (h : x ≠ c) :
    breakAt c (x :: xs) = (x :: (breakAt c xs).1, (breakAt c xs).2) := by
  simp [breakAt, h]

theorem breakAt_not_mem {c : Char} : ∀ {l : List Char}, c ∉ l → breakAt c l = (l, none) := by
  intro l
  induction l with
  | nil => intro _; rfl
  | cons x xs ih =>
    intro h
    have hx : x ≠ c := fun he => h (he ▸ List.mem_cons_self x xs)
    rw [breakAt_cons_ne c x xs hx, ih (fun hm => h (List.mem_cons_of_mem _ hm))]

theorem breakAt_first {c : Char} : ∀ {a : List Char}, c ∉ a → ∀ (b : List Char),
    breakAt c (a ++ c :: b) = (a, some b) := by
  intro a
  induction a with
  | nil => intro _ b; simpa using breakAt_cons_self c b
  | cons x xs ih =>
    intro h b
    have hx : x ≠ c := fun he => h (he ▸ List.mem_cons_self x xs)
    rw [List.cons_append, breakAt_cons_ne c x _ hx,
        ih (fun hm => h (List.mem_cons_of_mem _ hm)) b]

theorem breakAt_some_spec {c : Char} : ∀ {l b : List Char},
    (breakAt c l).2 = some b → l = (breakAt c l).1 ++ c :: b ∧ c ∉ (breakAt c l).1 := by
  intro l
  induction l with
  | nil => intro b h; simp [breakAt] at h
  | cons x xs ih =>
    intro b h
    by_cases hx : x = c
    · subst hx
      rw [breakAt_cons_self] at h
      simp only at h
      cases h
      rw [breakAt_cons_self]
      exact ⟨rfl, List.not_mem_nil _⟩
    · rw [breakAt_cons_ne c x xs hx] at h
      obtain ⟨h1, h2⟩ := ih h
      rw [breakAt_cons_ne c x xs hx]
      constructor
      · show x :: xs = x :: (breakAt c xs).1 ++ c :: b
        rw [List.cons_append, ← h1]
      · intro hm
        rcases List.mem_cons.1 hm with hm | hm
        · exact hx hm.symm
        · exact h2 hm

theorem breakAt_none_spec {c : Char} : ∀ {l : List Char},
    (breakAt c l).2 = none → (breakAt c l).1 = l ∧ c ∉ l := by
  intro l
  induction l with
  | nil => intro _; exact ⟨rfl, List.not_mem_nil _⟩
  | cons x xs ih =>
    intro h
    by_cases hx : x = c
    · subst hx; rw [breakAt_cons_self] at h; simp at h
    · rw [breakAt_cons_ne c x xs hx] at h ⊢
      obtain ⟨h1, h2⟩ := ih h
      refine ⟨by rw [h1], ?_⟩
      intro hm
      rcases List.mem_cons.1 hm with hm | hm
      · exact hx hm.symm
      · exact h2 hm

theorem spanNotIn_cons_mem (ds : List Char) (x : Char) (xs : List Char) (h : x ∈ ds) :
    spanNotIn ds (x :: xs) = ([], x :: xs) := by
  simp [spanNotIn, h]

theorem spanNotIn_cons_not_mem (ds : List Char) (x : Char) (xs : List Char) (h : x ∉ ds) :
    spanNotIn ds (x :: xs) = (x :: (spanNotIn ds xs).1, (spanNotIn ds xs).2) := by
  simp [spanNotIn, h]

theorem spanNotIn_append (ds : List Char) : ∀ (a : List Char), (∀ x ∈ a, x ∉ ds) →
    ∀ (y : Char) (ys : List Char), y ∈ ds → spanNotIn ds (a ++ y :: ys) = (a, y :: ys) := by
  intro a
  induction a with
  | nil => intro _ y ys hy; simpa using spanNotIn_cons_mem ds y ys hy
  | cons x xs ih =>
    intro h y ys hy
    rw [List.cons_append,
        spanNotIn_cons_not_mem ds x _ (h x (List.mem_cons_self x xs)),
        ih (fun z hz => h z (List.mem_cons_of_mem _ hz)) y ys hy]

theorem spanNotIn_all (ds : List Char) : ∀ (a : List Char), (∀ x ∈ a, x ∉ ds) →
    spanNotIn ds a = (a, []) := by
  intro a
  induction a with
  | nil => intro _; rfl
  | cons x xs ih =>
    intro h
    rw [spanNotIn_cons_not_mem ds x _ (h x (List.mem_cons_self x xs)),
        ih (fun z hz => h z (List.mem_cons_of_mem _ hz))]

theorem spanNotIn_spec (ds : List Char) : ∀ (l : List Char),
    l = (spanNotIn ds l).1 ++ (spanNotIn ds l).2 ∧
    (∀ x ∈ (spanNotIn ds l).1, x ∉ ds) ∧
    ((spanNotIn ds l).2 = [] ∨ ∃ y ys, (spanNotIn ds l).2 = y :: ys ∧ y ∈ ds) := by
  intro l
  induction l with
  | nil => exact ⟨rfl, fun x hx => absurd hx (List.not_mem_nil x), Or.inl rfl⟩
  | cons x xs ih =>
    by_cases hx : x ∈ ds
    · rw [spanNotIn_cons_mem ds x xs hx]
      exact ⟨rfl, fun z hz => absurd hz (List.not_mem_nil z), Or.inr ⟨x, xs, rfl, hx⟩⟩
    · rw [spanNotIn_cons_not_mem ds x xs hx]
      obtain ⟨h1, h2, h3⟩ := ih
      refine ⟨?_, ?_, h3⟩
      · show x :: xs = x :: (spanNotIn ds xs).1 ++ (spanNotIn ds xs).2
        rw [List.cons_append, ← h1]
      · intro z hz
        rcases List.mem_cons.1 hz with hz | hz
        · exact hz ▸ hx
        · exact h2 z hz

theorem rstripSlash_cons (x : Char) (xs : List Char) :
    rstripSlash (x :: xs) =
      match rstripSlash xs with
      | [] => if x = '/' then [] else [x]
      | r => x :: r := rfl

theorem rstripSlash_spec : ∀ (l : List Char),
    ∃ k, l = rstripSlash l ++ List.replicate k '/' := by
  intro l
  induction l with
  | nil => exact ⟨0, rfl⟩
  | cons x xs ih =>
    obtain ⟨k, hk⟩ := ih
    rw [rstripSlash_cons]
    cases hr : rstripSlash xs with
    | nil =>
      rw [hr] at hk
      by_cases hx : x = '/'
      · subst hx
        refine ⟨k + 1, ?_⟩
        simp only [if_pos rfl, List.nil_append]
        rw [List.replicate_succ]
        exact congrArg _ hk
      · rw [if_neg hx]
        refine ⟨k, ?_⟩
        simp only [List.nil_append] at hk
        rw [List.cons_append, List.nil_append, hk]
    | cons y ys =>
      rw [hr] at hk
      exact ⟨k, by rw [List.cons_append, ← hk]⟩

theorem rstripSlash_idem : ∀ (l : List Char), rstripSlash (rstripSlash l) = rstripSlash l := by
  intro l
  induction l with
  | nil => rfl
  | cons x xs ih =>
    rw [rstripSlash_cons]
    cases hr : rstripSlash xs with
    | nil =>
      by_cases hx : x = '/'
      · simp [hx, rstripSlash]
      · simp [hx, rstripSlash]
    | cons y ys =>
      have h2 : rstripSlash (y :: ys) = y :: ys := by rw [← hr, ih]
      show rstripSlash (x :: y :: ys) = x :: y :: ys
      rw [rstripSlash_cons, h2]

theorem mem_rstripSlash {x : Char} {l : List Char} (h : x ∈ rstripSlash l) : x ∈ l := by
  obtain ⟨k, hk⟩ := rstripSlash_spec l
  rw [hk]
  exact List.mem_append.2 (Or.inl h)

theorem rstripSlashOrRoot_idem (l : List Char) :
    rstripSlashOrRoot (rstripSlashOrRoot l) = rstripSlashOrRoot l := by
  unfold rstripSlashOrRoot
  cases hr : rstripSlash l with
  | nil => rfl
  | cons y ys =>
    have h2 : rstripSlash (y :: ys) = y :: ys := by rw [← hr, rstripSlash_idem]
    rw [h2]

theorem rstripSlashOrRoot_ne_nil (l : List Char) : rstripSlashOrRoot l ≠ [] := by
  unfold rstripSlashOrRoot
  cases rstripSlash l <;> simp

theorem rstripSlashOrRoot_head (l : List Char) (h : l = [] ∨ ∃ t, l = '/' :: t) :
    ∃ t, rstripSlashOrRoot l = '/' :: t := by
  rcases h with rfl | ⟨t, rfl⟩
  · exact ⟨[], rfl⟩
  · unfold rstripSlashOrRoot
    rw [rstripSlash_cons]
    cases h2 : rstripSlash t with
    | nil => exact ⟨[], rfl⟩
    | cons z zs => exact ⟨z :: zs, rfl⟩

theorem mem_rstripSlashOrRoot {x : Char} {l : List Char}
    (h : x ∈ rstripSlashOrRoot l) : x ∈ l ∨ x = '/' := by
  unfold rstripSlashOrRoot at h
  cases hr : rstripSlash l with
  | nil =>
    rw [hr] at h
    simp at h
    exact Or.inr h
  | cons y ys =>
    rw [hr] at h
    exact Or.inl (mem_rstripSlash (hr ▸ h))

theorem cleanUrl_eq_self {l : List Char} (h1 : ∀ c ∈ l, isUnsafeByte c = false)
    (h2 : l = [] ∨ ∃ c t, l = c :: t ∧ isC0OrSpace c = false) : cleanUrl l = l := by
  unfold cleanUrl
  have hd : l.dropWhile isC0OrSpace = l := by
    rcases h2 with rfl | ⟨c, t, rfl, hc⟩
    · rfl
    · rw [List.dropWhile_cons, if_neg (by simp [hc])]
  rw [hd]
  rw [List.filter_eq_self]
  intro a ha
  simp [h1 a ha]

theorem mem_cleanUrl {x : Char} {l : List Char} (h : x ∈ cleanUrl l) :
    isUnsafeByte x = false := by
  unfold cleanUrl at h
  have := (List.mem_filter.1 h).2
  simpa using this

/-! ## Character-class lemmas -/

theorem lowerChar_cases (c : Char) : lowerChar c = c ∨ c ∈ upperChars := by
  by_cases h : c ∈ upperChars
  · exact Or.inr h
  · left
    have hh : ∀ d, d ∈ upperChars → c ≠ d := fun d hd he => h (he ▸ hd)
    unfold lowerChar
    repeat rw [if_neg (hh _ (by decide))]

theorem lowerChar_props (c : Char) :
    lowerChar (lowerChar c) = lowerChar c ∧
    (isSchemeChar c = true → isSchemeChar (lowerChar c) = true) ∧
    (isAsciiAlphaCh c = true → isAsciiAlphaCh (lowerChar c) = true) := by
  rcases lowerChar_cases c with h | h
  · rw [h]
    exact ⟨h, fun hh => hh, fun hh => hh⟩
  · fin_cases h <;> decide

theorem schemeChar_facts {c : Char} (h : isSchemeChar c = true) :
    c ≠ ':' ∧ c ≠ '#' ∧ c ≠ '?' ∧ c ≠ '/' ∧ c ≠ ';' ∧
    isUnsafeByte c = false ∧ isC0OrSpace c = false := by
  refine ⟨?_, ?_, ?_, ?_, ?_, ?_, ?_⟩
  · intro he; subst he; exact absurd h (by decide)
  · intro he; subst he; exact absurd h (by decide)
  · intro he; subst he; exact absurd h (by decide)
  · intro he; subst he; exact absurd h (by decide)
  · intro he; subst he; exact absurd h (by decide)
  · cases hu : isUnsafeByte c
    · rfl
    · exfalso
      have h3 : c = '\t' ∨ c = '\r' ∨ c = '\n' := by
        simpa [isUnsafeByte] using hu
      rcases h3 with rfl | rfl | rfl <;> exact absurd h (by decide)
  · cases hc : isC0OrSpace c
    · rfl
    · exfalso
      have h32 : c.toNat ≤ 32 := by simpa [isC0OrSpace] using hc
      have hge : 43 ≤ c.toNat := by
        simp only [isSchemeChar, isAsciiAlphaCh, isAsciiUpperCh, isAsciiLowerCh,
          isDigitCh, Bool.or_eq_true, decide_eq_true_eq] at h
        rcases h with (⟨h1, _⟩ | ⟨h1, _⟩) | ⟨h1, _⟩ | rfl | rfl | rfl
        · omega
        · omega
        · omega
        · decide
        · decide
        · decide
      omega

/-! ## Stage lemmas for `urlsplit` -/

theorem splitSchemeCore_some {l s r : List Char}
    (h : splitSchemeCore l = some (s, r)) :
    ∃ c0 t, (breakAt ':' l).1 = c0 :: t ∧ isAsciiAlphaCh c0 = true ∧
      ((c0 :: t).all isSchemeChar) = true ∧ s = (c0 :: t).map lowerChar ∧
      (breakAt ':' l).2 = some r := by
  unfold splitSchemeCore at h
  split at h
  · exact absurd h (by simp)
  next pre rest hbr =>
    split at h
    · exact absurd h (by simp)
    next c0 t =>
      split at h
      next hcond =>
        simp only [Option.some.injEq, Prod.mk.injEq] at h
        refine ⟨c0, t, ?_, hcond.1, hcond.2, h.1.symm, ?_⟩
        · rw [hbr]
        · rw [hbr, h.2]
      · exact absurd h (by simp)

theorem splitSchemeCore_none_of_head {x : Char} {xs : List Char}
    (hx : isAsciiAlphaCh x = false) : splitSchemeCore (x :: xs) = none := by
  by_cases hc : x = ':'
  · subst hc
    unfold splitSchemeCore
    rw [breakAt_cons_self]
  · unfold splitSchemeCore
    rw [breakAt_cons_ne ':' x xs hc]
    cases hb : (breakAt ':' xs).2 with
    | none => rfl
    | some r =>
      show (if isAsciiAlphaCh x ∧ (x :: (breakAt ':' xs).1).all isSchemeChar then _
            else none) = none
      rw [if_neg]
      intro hcond
      rw [hx] at hcond
      exact absurd hcond.1 (by simp)

theorem splitSchemeCore_of_scheme {c0 : Char} {t rest : List Char}
    (ha : isAsciiAlphaCh c0 = true) (hall : (c0 :: t).all isSchemeChar = true)
    (hcol : ':' ∉ c0 :: t) :
    splitSchemeCore ((c0 :: t) ++ ':' :: rest) = some ((c0 :: t).map lowerChar, rest) := by
  unfold splitSchemeCore
  rw [breakAt_first hcol rest]
  show (if isAsciiAlphaCh c0 ∧ (c0 :: t).all isSchemeChar then
          some ((c0 :: t).map lowerChar, rest) else none) = _
  rw [if_pos ⟨ha, hall⟩]

theorem netlocStage_of_netloc {nl : List Char} {t : List Char}
    (hnl : ∀ x ∈ nl, x ∉ (['/', '?', '#'] : List Char)) :
    netlocStage ('/' :: '/' :: (nl ++ '/' :: t)) = (nl, '/' :: t) := by
  show splitNetlocCore (nl ++ '/' :: t) = (nl, '/' :: t)
  unfold splitNetlocCore
  exact spanNotIn_append _ nl hnl '/' t (by decide)

theorem fragStage_no (l : List Char) (h : '#' ∉ l) : fragStage l = (l, []) := by
  unfold fragStage
  rw [breakAt_not_mem h]
  rfl

theorem queryStage_no (l : List Char) (h : '?' ∉ l) : queryStage l = (l, []) := by
  unfold queryStage
  rw [breakAt_not_mem h]
  rfl

theorem queryStage_split (a q : List Char) (h : '?' ∉ a) :
    queryStage (a ++ '?' :: q) = (a, q) := by
  unfold queryStage
  rw [breakAt_first h q]
  rfl

theorem breakAt_head (c x : Char) (xs : List Char) :
    (breakAt c (x :: xs)).1 = [] ∨ ∃ t, (breakAt c (x :: xs)).1 = x :: t := by
  by_cases hx : x = c
  · subst hx; rw [breakAt_cons_self]; exact Or.inl rfl
  · rw [breakAt_cons_ne c x xs hx]; exact Or.inr ⟨(breakAt c xs).1, rfl⟩

theorem fragStage_spec (l : List Char) :
    (∀ c ∈ (fragStage l).1, c ≠ '#' ∧ c ∈ l) ∧ (∀ c ∈ (fragStage l).2, c ∈ l) := by
  cases hb : (breakAt '#' l).2 with
  | none =>
    obtain ⟨h1, h2⟩ := breakAt_none_spec hb
    constructor
    · intro c hc
      have hc1 : c ∈ (breakAt '#' l).1 := hc
      rw [h1] at hc1
      exact ⟨fun he => h2 (he ▸ hc1), hc1⟩
    · intro c hc
      have hc2 : c ∈ ((breakAt '#' l).2).getD [] := hc
      rw [hb] at hc2
      exact absurd hc2 (List.not_mem_nil c)
  | some b =>
    obtain ⟨h1, h2⟩ := breakAt_some_spec hb
    constructor
    · intro c hc
      have hc1 : c ∈ (breakAt '#' l).1 := hc
      refine ⟨fun he => h2 (he ▸ hc1), ?_⟩
      rw [h1]
      exact List.mem_append.2 (Or.inl hc1)
    · intro c hc
      have hc2 : c ∈ ((breakAt '#' l).2).getD [] := hc
      rw [hb] at hc2
      rw [h1]
      exact List.mem_append.2 (Or.inr (List.mem_cons_of_mem _ hc2))

theorem queryStage_spec (l : List Char) :
    (∀ c ∈ (queryStage l).1, c ≠ '?' ∧ c ∈ l) ∧ (∀ c ∈ (queryStage l).2, c ∈ l) := by
  cases hb : (breakAt '?' l).2 with
  | none =>
    obtain ⟨h1, h2⟩ := breakAt_none_spec hb
    constructor
    · intro c hc
      have hc1 : c ∈ (breakAt '?' l).1 := hc
      rw [h1] at hc1
      exact ⟨fun he => h2 (he ▸ hc1), hc1⟩
    · intro c hc
      have hc2 : c ∈ ((breakAt '?' l).2).getD [] := hc
      rw [hb] at hc2
      exact absurd hc2 (List.not_mem_nil c)
  | some b =>
    obtain ⟨h1, h2⟩ := breakAt_some_spec hb
    constructor
    · intro c hc
      have hc1 : c ∈ (breakAt '?' l).1 := hc
      refine ⟨fun he => h2 (he ▸ hc1), ?_⟩
      rw [h1]
      exact List.mem_append.2 (Or.inl hc1)
    · intro c hc
      have hc2 : c ∈ ((breakAt '?' l).2).getD [] := hc
      rw [hb] at hc2
      rw [h1]
      exact List.mem_append.2 (Or.inr (List.mem_cons_of_mem _ hc2))

/-! ## Lemmas about the params split -/

theorem reverse_break_decomp {X d : List Char} {l : List Char} {c : Char}
    (h1 : l.reverse = X ++ c :: d) : l = d.reverse ++ c :: X.reverse := by
  have h3 : l = (X ++ c :: d).reverse := by
    rw [← h1, List.reverse_reverse]
  refine h3.trans ?_
  simp [List.reverse_append, List.append_assoc]

theorem last_slash_decomp {l : List Char} (h : '/' ∈ l) :
    ∃ A B, l = A ++ '/' :: B ∧ '/' ∉ B := by
  have hrev : '/' ∈ l.reverse := List.mem_reverse.2 h
  cases hb : (breakAt '/' l.reverse).2 with
  | none =>
    obtain ⟨_, hnm⟩ := breakAt_none_spec hb
    exact absurd hrev hnm
  | some d =>
    obtain ⟨h1, h2⟩ := breakAt_some_spec hb
    refine ⟨d.reverse, ((breakAt '/' l.reverse).1).reverse, reverse_break_decomp h1, ?_⟩
    simpa [List.mem_reverse] using h2

theorem splitParamsCore_spec (l : List Char) :
    (∀ c ∈ (splitParamsCore l).1, c ∈ l) ∧
    (∀ c ∈ (splitParamsCore l).2, c ∈ l ∧ c ≠ '/') ∧
    (∀ x xs, l = x :: xs →
      (splitParamsCore l).1 = [] ∨ ∃ t, (splitParamsCore l).1 = x :: t) := by
  by_cases hs : '/' ∈ l
  · cases hb : (breakAt '/' l.reverse).2 with
    | none =>
      obtain ⟨_, hnm⟩ := breakAt_none_spec hb
      exact absurd (List.mem_reverse.2 hs) hnm
    | some revFront =>
      obtain ⟨h1, h2⟩ := breakAt_some_spec hb
      have hl : l = revFront.reverse ++ '/' :: ((breakAt '/' l.reverse).1).reverse :=
        reverse_break_decomp h1
      cases hb2 : (breakAt ';' (((breakAt '/' l.reverse).1).reverse)).2 with
      | none =>
        have heq : splitParamsCore l = (l, []) := by
          unfold splitParamsCore
          rw [if_pos hs, hb]
          show (match (breakAt ';' (((breakAt '/' l.reverse).1).reverse)).2 with
                | none => (l, [])
                | some post =>
                  (revFront.reverse ++
                    '/' :: (breakAt ';' (((breakAt '/' l.reverse).1).reverse)).1, post)) = _
          rw [hb2]
        rw [heq]
        refine ⟨fun c hc => hc, fun c hc => absurd hc (List.not_mem_nil c), ?_⟩
        intro x xs hx
        exact Or.inr ⟨xs, hx⟩
      | some post =>
        obtain ⟨h3, h4⟩ := breakAt_some_spec hb2
        have heq : splitParamsCore l =
            (revFront.reverse ++ '/' :: (breakAt ';' (((breakAt '/' l.reverse).1).reverse)).1,
             post) := by
          unfold splitParamsCore
          rw [if_pos hs, hb]
          show (match (breakAt ';' (((breakAt '/' l.reverse).1).reverse)).2 with
                | none => (l, [])
                | some post =>
                  (revFront.reverse ++
                    '/' :: (breakAt ';' (((breakAt '/' l.reverse).1).reverse)).1, post)) = _
          rw [hb2]
        rw [heq]
        have hmemLast : ∀ c ∈ ((breakAt '/' l.reverse).1).reverse, c ∈ l ∧ c ≠ '/' := by
          intro c hc
          constructor
          · rw [hl]
            exact List.mem_append.2 (Or.inr (List.mem_cons_of_mem _ hc))
          · intro he
            exact h2 (List.mem_reverse.1 (he ▸ hc))
        refine ⟨?_, ?_, ?_⟩
        · intro c hc
          rcases List.mem_append.1 hc with hc | hc
          · rw [hl]
            exact List.mem_append.2 (Or.inl hc)
          · rcases List.mem_cons.1 hc with rfl | hc
            · rw [hl]
              exact List.mem_append.2 (Or.inr (List.mem_cons_self _ _))
            · have hcl : c ∈ ((breakAt '/' l.reverse).1).reverse := by
                rw [h3]
                exact List.mem_append.2 (Or.inl hc)
              exact (hmemLast c hcl).1
        · intro c hc
          have hcl : c ∈ ((breakAt '/' l.reverse).1).reverse := by
            rw [h3]
            exact List.mem_append.2 (Or.inr (List.mem_cons_of_mem _ hc))
          exact hmemLast c hcl
        · intro x xs hx
          right
          cases hf : revFront.reverse with
          | nil =>
            rw [hf, List.nil_append] at hl
            rw [hl] at hx
            cases hx
            exact ⟨(breakAt ';' (((breakAt '/' l.reverse).1).reverse)).1, rfl⟩
          | cons y ys =>
            rw [hf] at hl
            rw [hl] at hx
            cases hx
            exact ⟨ys ++ '/' :: (breakAt ';' (((breakAt '/' l.reverse).1).reverse)).1, rfl⟩
  · cases hb : (breakAt ';' l).2 with
    | none =>
      obtain ⟨h1, _⟩ := breakAt_none_spec hb
      have heq : splitParamsCore l = ((breakAt ';' l).1, []) := by
        unfold splitParamsCore
        rw [if_neg hs, hb]
      rw [heq, h1]
      refine ⟨fun c hc => hc, fun c hc => absurd hc (List.not_mem_nil c), ?_⟩
      intro x xs hx
      rw [hx]
      exact Or.inr ⟨xs, rfl⟩
    | some post =>
      obtain ⟨h1, h2⟩ := breakAt_some_spec hb
      have heq : splitParamsCore l = ((breakAt ';' l).1, post) := by
        unfold splitParamsCore
        rw [if_neg hs, hb]
      rw [heq]
      refine ⟨?_, ?_, ?_⟩
      · intro c hc
        rw [h1]
        exact List.mem_append.2 (Or.inl hc)
      · intro c hc
        constructor
        · rw [h1]
          exact List.mem_append.2 (Or.inr (List.mem_cons_of_mem _ hc))
        · intro he
          apply hs
          rw [h1]
          exact List.mem_append.2 (Or.inr (List.mem_cons_of_mem _ (he ▸ hc)))
      · intro x xs hx
        subst hx
        exact breakAt_head ';' x xs

theorem splitParamsCore_join {pa par : List Char}
    (hp : ';' ∉ pa) (hsl : '/' ∈ pa) (hparams : '/' ∉ par) :
    splitParamsCore (pa ++ ';' :: par) = (pa, par) := by
  obtain ⟨A, B, rfl, hB⟩ := last_slash_decomp hsl
  have hpB : ';' ∉ B := fun hm => hp (List.mem_append.2 (Or.inr (List.mem_cons_of_mem _ hm)))
  unfold splitParamsCore
  rw [if_pos (show '/' ∈ (A ++ '/' :: B) ++ ';' :: par from
    List.mem_append.2 (Or.inl (List.mem_append.2 (Or.inr (List.mem_cons_self _ _)))))]
  have hrev : ((A ++ '/' :: B) ++ ';' :: par).reverse =
      (par.reverse ++ ';' :: B.reverse) ++ '/' :: A.reverse := by
    simp [List.reverse_append]
  have hno : '/' ∉ par.reverse ++ ';' :: B.reverse := by
    intro hm
    rcases List.mem_append.1 hm with hm | hm
    · exact hparams (List.mem_reverse.1 hm)
    · rcases List.mem_cons.1 hm with he | hm
      · exact absurd he (by decide)
      · exact hB (List.mem_reverse.1 hm)
  rw [hrev, breakAt_first hno A.reverse]
  have hlastrev : (par.reverse ++ ';' :: B.reverse).reverse = B ++ ';' :: par := by
    simp [List.reverse_append]
  rw [hlastrev, breakAt_first hpB par]
  simp [List.reverse_reverse]

/-! ## Well-formedness of parse results -/

theorem mapLower_props {pre : List Char} (h : pre.all isSchemeChar = true) :
    (pre.map lowerChar).all isSchemeChar = true ∧
    (pre.map lowerChar).map lowerChar = pre.map lowerChar := by
  constructor
  · rw [List.all_eq_true]
    intro x hx
    obtain ⟨y, hy, rfl⟩ := List.mem_map.1 hx
    exact (lowerChar_props y).2.1 (List.all_eq_true.1 h y hy)
  · rw [List.map_map]
    apply List.map_congr_left
    intro y _
    exact (lowerChar_props y).1

theorem schemeStage_cases (l dflt : List Char) :
    schemeStage l dflt = (dflt, l) ∨
    ∃ c0 t, isAsciiAlphaCh c0 = true ∧ (c0 :: t).all isSchemeChar = true ∧
      l = (c0 :: t) ++ ':' :: (schemeStage l dflt).2 ∧
      (schemeStage l dflt).1 = (c0 :: t).map lowerChar := by
  unfold schemeStage
  cases hs : splitSchemeCore l with
  | none => exact Or.inl rfl
  | some r =>
    have hs2 : splitSchemeCore l = some (r.1, r.2) := by rw [hs]
    obtain ⟨c0, t, hpre, ha, hall, hfst, hsnd⟩ := splitSchemeCore_some hs2
    obtain ⟨hl, _⟩ := breakAt_some_spec hsnd
    exact Or.inr ⟨c0, t, ha, hall, by rw [hl, hpre], hfst⟩

theorem netlocStage_spec (l : List Char) :
    (∀ c ∈ (netlocStage l).1, c ∉ (['/', '?', '#'] : List Char) ∧ c ∈ l) ∧
    (∀ c ∈ (netlocStage l).2, c ∈ l) ∧
    ((netlocStage l).1 ≠ [] →
      (netlocStage l).2 = [] ∨
      ∃ y t, (netlocStage l).2 = y :: t ∧ y ∈ (['/', '?', '#'] : List Char)) := by
  unfold netlocStage
  split
  next rest =>
    unfold splitNetlocCore
    obtain ⟨hsp1, hsp2, hsp3⟩ := spanNotIn_spec ['/', '?', '#'] rest
    refine ⟨?_, ?_, ?_⟩
    · intro c hc
      refine ⟨hsp2 c hc, ?_⟩
      refine List.mem_cons_of_mem _ (List.mem_cons_of_mem _ ?_)
      rw [hsp1]
      exact List.mem_append.2 (Or.inl hc)
    · intro c hc
      refine List.mem_cons_of_mem _ (List.mem_cons_of_mem _ ?_)
      rw [hsp1]
      exact List.mem_append.2 (Or.inr hc)
    · intro _
      rcases hsp3 with h0 | ⟨y, ys, hy, hyd⟩
      · exact Or.inl h0
      · exact Or.inr ⟨y, ys, hy, hyd⟩
  next =>
    refine ⟨?_, fun c hc => hc, ?_⟩
    · intro c hc
      exact absurd hc (List.not_mem_nil c)
    · intro hne
      exact absurd rfl hne

theorem urlsplit_ok_inv {u d : String} {sp : SplitResult} (h : urlsplit u d = .ok sp) :
    sp.scheme.data = (schemeStage (cleanUrl u.data) (cleanScheme d.data)).1 ∧
    sp.netloc.data = (netlocStage (schemeStage (cleanUrl u.data) (cleanScheme d.data)).2).1 ∧
    sp.path.data =
      (queryStage (fragStage
        (netlocStage (schemeStage (cleanUrl u.data) (cleanScheme d.data)).2).2).1).1 ∧
    sp.query.data =
      (queryStage (fragStage
        (netlocStage (schemeStage (cleanUrl u.data) (cleanScheme d.data)).2).2).1).2 ∧
    sp.fragment.data =
      (fragStage (netlocStage (schemeStage (cleanUrl u.data) (cleanScheme d.data)).2).2).2 ∧
    netlocOk (netlocStage (schemeStage (cleanUrl u.data) (cleanScheme d.data)).2).1 = true := by
  unfold urlsplit at h
  split at h
  next hok =>
    injection h with h2
    subst h2
    exact ⟨rfl, rfl, rfl, rfl, rfl, hok⟩
  next hok => exact absurd h (by simp)

theorem urlparse_ok_wf {u : String} {p : ParseResult}
    (h : urlparse u ("") = .ok p) : ParsedWF p := by
  unfold urlparse at h
  split at h
  · exact absurd h (by simp)
  next s hsp =>
    obtain ⟨e1, e2, e3, e4, e5, hok⟩ := urlsplit_ok_inv hsp
    have hL : ∀ c ∈ cleanUrl u.data, isUnsafeByte c = false := fun c hc => mem_cleanUrl hc
    -- facts about the scheme and the post-scheme remainder
    have hscheme :
        (s.scheme.data = [] ∨
          ∃ c0 t, s.scheme.data = c0 :: t ∧ isAsciiAlphaCh c0 = true ∧
            (c0 :: t).all isSchemeChar = true ∧ (c0 :: t).map lowerChar = c0 :: t) ∧
        (∀ c ∈ (schemeStage (cleanUrl u.data) (cleanScheme (String.data (""))) ).2,
          isUnsafeByte c = false) := by
      rcases schemeStage_cases (cleanUrl u.data) (cleanScheme (String.data (""))) with hsc | hsc
      · constructor
        · left
          rw [e1, hsc]
          rfl
        · intro c hc
          apply hL
          have : (schemeStage (cleanUrl u.data) (cleanScheme (String.data (""))) ).2 =
              cleanUrl u.data := by rw [hsc]
          rw [this] at hc
          exact hc
      · obtain ⟨c0, t, ha, hall, hldec, hfst⟩ := hsc
        constructor
        · right
          obtain ⟨hall2, hmap2⟩ := mapLower_props hall
          refine ⟨lowerChar c0, t.map lowerChar, ?_, ?_, ?_, ?_⟩
          · rw [e1, hfst]
            rfl
          · exact (lowerChar_props c0).2.2 ha
          · have : lowerChar c0 :: t.map lowerChar = (c0 :: t).map lowerChar := rfl
            rw [this]
            exact hall2
          · have hcons : lowerChar c0 :: t.map lowerChar = (c0 :: t).map lowerChar := rfl
            rw [hcons, hmap2]
        · intro c hc
          apply hL
          rw [hldec]
          exact List.mem_append.2 (Or.inr (List.mem_cons_of_mem _ hc))
    obtain ⟨hschemeWF, hs2unsafe⟩ := hscheme
    obtain ⟨hn1, hn2, hn3⟩ :=
      netlocStage_spec (schemeStage (cleanUrl u.data) (cleanScheme (String.data (""))) ).2
    obtain ⟨hf1, hf2⟩ :=
      fragStage_spec
        (netlocStage (schemeStage (cleanUrl u.data) (cleanScheme (String.data (""))) ).2).2
    obtain ⟨hq1, hq2⟩ :=
      queryStage_spec
        (fragStage
          (netlocStage (schemeStage (cleanUrl u.data) (cleanScheme (String.data (""))) ).2).2).1
    -- facts about the split path
    have hpathfacts : ∀ c ∈ s.path.data, c ≠ '#' ∧ c ≠ '?' ∧ isUnsafeByte c = false := by
      intro c hc
      rw [e3] at hc
      obtain ⟨hcq, hcf⟩ := hq1 c hc
      obtain ⟨hcfr, hcn⟩ := hf1 c hcf
      exact ⟨hcfr, hcq, hs2unsafe c (hn2 c hcn)⟩
    have hqueryfacts : ∀ c ∈ s.query.data, c ≠ '#' ∧ isUnsafeByte c = false := by
      intro c hc
      rw [e4] at hc
      have hcf := hq2 c hc
      obtain ⟨hcfr, hcn⟩ := hf1 c hcf
      exact ⟨hcfr, hs2unsafe c (hn2 c hcn)⟩
    have hnetlocfacts :
        ∀ c ∈ s.netloc.data, c ∉ (['/', '?', '#'] : List Char) ∧ isUnsafeByte c = false := by
      intro c hc
      rw [e2] at hc
      obtain ⟨hcd, hcn⟩ := hn1 c hc
      exact ⟨hcd, hs2unsafe c hcn⟩
    -- a nonempty netloc forces an empty or slash-led path
    have hshape : s.netloc.data ≠ [] → s.path.data = [] ∨ ∃ t, s.path.data = '/' :: t := by
      intro hne
      rw [e2] at hne
      rw [e3]
      rcases hn3 hne with h2e | ⟨y, yt, hyeq, hyd⟩
      · left
        rw [h2e]
        rfl
      · rw [hyeq]
        have hym : y = '/' ∨ y = '?' ∨ y = '#' := by simpa using hyd
        rcases hym with rfl | rfl | rfl
        · rcases breakAt_head '#' '/' yt with hf0 | ⟨t1, hf1'⟩
          · left
            show (queryStage (fragStage ('/' :: yt)).1).1 = []
            unfold fragStage
            rw [hf0]
            rfl
          · have hstep : (fragStage ('/' :: yt)).1 = '/' :: t1 := by
              unfold fragStage
              rw [hf1']
            rw [hstep]
            rcases breakAt_head '?' '/' t1 with hq0 | ⟨t2, hq1'⟩
            · left
              show (queryStage ('/' :: t1)).1 = []
              unfold queryStage
              rw [hq0]
            · right
              refine ⟨t2, ?_⟩
              show (queryStage ('/' :: t1)).1 = '/' :: t2
              unfold queryStage
              rw [hq1']
        · left
          rcases breakAt_head '#' '?' yt with hf0 | ⟨t1, hf1'⟩
          · show (queryStage (fragStage ('?' :: yt)).1).1 = []
            unfold fragStage
            rw [hf0]
            rfl
          · have hstep : (fragStage ('?' :: yt)).1 = '?' :: t1 := by
              unfold fragStage
              rw [hf1']
            rw [hstep]
            show (queryStage ('?' :: t1)).1 = []
            unfold queryStage
            rw [breakAt_cons_self]
        · left
          show (queryStage (fragStage ('#' :: yt)).1).1 = []
          unfold fragStage
          rw [breakAt_cons_self]
          rfl
    -- now the params split
    split at h
    next hcond =>
      injection h with h2
      subst h2
      obtain ⟨hp1, hp2, hp3⟩ := splitParamsCore_spec s.path.data
      refine ⟨?_, hnetlocfacts, by rw [e2]; exact hok, ?_, ?_, hqueryfacts, ?_, ?_⟩
      · exact hschemeWF
      · intro c hc
        have hcm : c ∈ s.path.data := hp1 c hc
        exact hpathfacts c hcm
      · intro c hc
        obtain ⟨hcm, hcs⟩ := hp2 c hc
        obtain ⟨ha, hb, hcu⟩ := hpathfacts c hcm
        exact ⟨ha, hb, hcs, hcu⟩
      · intro hne
        rcases hshape hne with hp0 | ⟨t, hpt⟩
        · exfalso
          rw [hp0] at hcond
          exact absurd hcond.2 (List.not_mem_nil _)
        · rcases hp3 '/' t hpt with h0 | ⟨t', ht'⟩
          · exact Or.inl h0
          · exact Or.inr ⟨t', ht'⟩
      · intro _
        exact hcond.1
    next hcond =>
      injection h with h2
      subst h2
      refine ⟨hschemeWF, hnetlocfacts, by rw [e2]; exact hok, hpathfacts, ?_, hqueryfacts,
        hshape, ?_⟩
      · intro c hc
        exact absurd hc (List.not_mem_nil c)
      · intro hne
        exact absurd rfl hne

/-! ## Reassembly lemmas -/

theorem alpha_not_c0 {c : Char} (h : isAsciiAlphaCh c = true) : isC0OrSpace c = false := by
  simp [isAsciiAlphaCh, isAsciiUpperCh, isAsciiLowerCh] at h
  simp [isC0OrSpace]
  omega

theorem rstripSlash_last_ne : ∀ (l : List Char),
    rstripSlash l = [] ∨ ∃ l2 c, rstripSlash l = l2 ++ [c] ∧ c ≠ '/' := by
  intro l
  induction l with
  | nil => exact Or.inl rfl
  | cons x xs ih =>
    rw [rstripSlash_cons]
    cases hr : rstripSlash xs with
    | nil =>
      by_cases hx : x = '/'
      · rw [if_pos hx]
        exact Or.inl rfl
      · rw [if_neg hx]
        exact Or.inr ⟨[], x, rfl, hx⟩
    | cons y ys =>
      rcases ih with h0 | ⟨l2, c, hl2, hc⟩
      · rw [hr] at h0
        exact absurd h0 (by simp)
      · rw [hr] at hl2
        exact Or.inr ⟨x :: l2, c, by simp [hl2], hc⟩

theorem normalize_url_eq {u : String} {p : ParseResult} (h : urlparse u ("") = .ok p) :
    normalize_url u = .ok (urlunparse ⟨p.scheme, p.netloc,
      String.mk (rstripSlashOrRoot p.path.data), p.params, p.query, ""⟩) := by
  unfold normalize_url
  rw [h]

theorem urlunparse_data (p : ParseResult) (t : List Char)
    (hpath : p.path.data = '/' :: t) (hnl : p.netloc.data ≠ []) :
    (urlunparse p).data =
      (if p.scheme.data ≠ [] then p.scheme.data ++ [':'] else []) ++
      '/' :: '/' :: p.netloc.data ++
      (if p.params.data ≠ [] then p.path.data ++ ';' :: p.params.data
        else p.path.data) ++
      (if p.query.data ≠ [] then '?' :: p.query.data else []) ++
      (if p.fragment.data ≠ [] then '#' :: p.fragment.data else []) := by
  by_cases hR : p.params.data = [] <;> by_cases hQ : p.query.data = [] <;>
    by_cases hF : p.fragment.data = [] <;> by_cases hS : p.scheme.data = [] <;>
    simp [urlunparse, urlunsplit, hR, hQ, hF, hS, hnl, hpath, List.append_assoc]

theorem urlsplit_parts (S N t0 Q : List Char)
    (hS : S = [] ∨ ∃ c0 t1, S = c0 :: t1 ∧ isAsciiAlphaCh c0 = true ∧
          (c0 :: t1).all isSchemeChar = true ∧ (c0 :: t1).map lowerChar = c0 :: t1)
    (hN : ∀ c ∈ N, c ∉ (['/', '?', '#'] : List Char) ∧ isUnsafeByte c = false)
    (hNok : netlocOk N = true)
    (hUc : ∀ c ∈ '/' :: t0, c ≠ '#' ∧ c ≠ '?' ∧ isUnsafeByte c = false)
    (hQc : ∀ c ∈ Q, c ≠ '#' ∧ isUnsafeByte c = false)
    (u : String)
    (hu : u.data = (if S ≠ [] then S ++ [':'] else []) ++
      '/' :: '/' :: ((N ++ ('/' :: t0)) ++ (if Q ≠ [] then '?' :: Q else []))) :
    urlsplit u ("") =
      .ok ⟨String.mk S, String.mk N, String.mk ('/' :: t0), String.mk Q,
           String.mk []⟩ := by
  have hQsep : ∀ c ∈ (if Q ≠ [] then '?' :: Q else []),
      c ≠ '#' ∧ isUnsafeByte c = false := by
    intro c hc
    split at hc
    · rcases List.mem_cons.1 hc with rfl | hc2
      · exact ⟨by decide, by decide⟩
      · exact hQc c hc2
    · exact absurd hc (List.not_mem_nil c)
  have hrest2H : '#' ∉ ('/' :: t0) ++ (if Q ≠ [] then '?' :: Q else []) := by
    intro hm
    rcases List.mem_append.1 hm with hm1 | hm2
    · exact (hUc _ hm1).1 rfl
    · exact (hQsep _ hm2).1 rfl
  have hUnoQ : '?' ∉ ('/' :: t0) := fun hm => (hUc _ hm).2.1 rfl
  have e3 : fragStage (('/' :: t0) ++ (if Q ≠ [] then '?' :: Q else [])) =
      (('/' :: t0) ++ (if Q ≠ [] then '?' :: Q else []), []) :=
    fragStage_no _ hrest2H
  have e4 : queryStage (('/' :: t0) ++ (if Q ≠ [] then '?' :: Q else [])) =
      ('/' :: t0, Q) := by
    by_cases hQe : Q = []
    · subst hQe
      rw [if_neg (fun hq => hq rfl), List.append_nil]
      exact queryStage_no _ hUnoQ
    · rw [if_pos hQe]
      exact queryStage_split ('/' :: t0) Q hUnoQ
  have hN' : ∀ x ∈ N, x ∉ (['/', '?', '#'] : List Char) := fun x hx => (hN x hx).1
  have e2 : netlocStage
      ('/' :: '/' :: ((N ++ ('/' :: t0)) ++ (if Q ≠ [] then '?' :: Q else []))) =
      (N, ('/' :: t0) ++ (if Q ≠ [] then '?' :: Q else [])) := by
    have hassoc : (N ++ ('/' :: t0)) ++ (if Q ≠ [] then '?' :: Q else []) =
        N ++ '/' :: (t0 ++ (if Q ≠ [] then '?' :: Q else [])) := by
      simp
    rw [hassoc, netlocStage_of_netloc hN']
    rfl
  have hclean : cleanUrl u.data = u.data := by
    apply cleanUrl_eq_self
    · intro c hc
      rw [hu] at hc
      rcases List.mem_append.1 hc with h1 | h2
      · split at h1
        · rcases List.mem_append.1 h1 with hs1 | hs2
          · rcases hS with rfl | ⟨c0, t1, rfl, _, hall, _⟩
            · exact absurd hs1 (List.not_mem_nil c)
            · exact (schemeChar_facts (List.all_eq_true.1 hall c hs1)).2.2.2.2.2.1
          · have hce : c = ':' := by simpa using hs2
            subst hce
            decide
        · exact absurd h1 (List.not_mem_nil c)
      · rcases List.mem_cons.1 h2 with rfl | h3
        · decide
        rcases List.mem_cons.1 h3 with rfl | h4
        · decide
        rcases List.mem_append.1 h4 with h5 | h6
        · rcases List.mem_append.1 h5 with h7 | h8
          · exact (hN c h7).2
          · exact (hUc c h8).2.2
        · exact (hQsep c h6).2
    · rcases hS with hS0 | ⟨c0, t1, hSc, ha, _, _⟩
      · right
        refine ⟨'/', '/' :: ((N ++ ('/' :: t0)) ++ (if Q ≠ [] then '?' :: Q else [])),
          ?_, by decide⟩
        rw [hu, hS0, if_neg (fun hx => hx rfl)]
        rfl
      · right
        refine ⟨c0, (t1 ++ [':']) ++
          '/' :: '/' :: ((N ++ ('/' :: t0)) ++ (if Q ≠ [] then '?' :: Q else [])),
          ?_, alpha_not_c0 ha⟩
        rw [hu, hSc, if_pos (by simp)]
        simp
  have e1 : schemeStage u.data (cleanScheme ("" : String).data) =
      (S, '/' :: '/' :: ((N ++ ('/' :: t0)) ++ (if Q ≠ [] then '?' :: Q else []))) := by
    rcases hS with hS0 | ⟨c0, t1, hSc, ha, hall, hmap⟩
    · unfold schemeStage
      rw [hu, hS0, if_neg (fun hx => hx rfl), List.nil_append]
      rw [splitSchemeCore_none_of_head (by decide)]
      rfl
    · have hrw : u.data = (c0 :: t1) ++ ':' ::
          ('/' :: '/' :: ((N ++ ('/' :: t0)) ++ (if Q ≠ [] then '?' :: Q else []))) := by
        rw [hu, hSc, if_pos (by simp)]
        simp
      have hcol : ':' ∉ c0 :: t1 := by
        intro hm
        exact (schemeChar_facts (List.all_eq_true.1 hall _ hm)).1 rfl
      unfold schemeStage
      rw [hrw, splitSchemeCore_of_scheme ha hall hcol, hmap, hSc]
  unfold urlsplit
  simp only [hclean, e1, e2, e3, e4]
  rw [if_pos hNok]

theorem urlparse_urlunparse_roundtrip (p : ParseResult) (t : List Char)
    (hwf : ParsedWF p) (hfrag : p.fragment.data = [])
    (hnl : p.netloc.data ≠ []) (hpath : p.path.data = '/' :: t)
    (hsemi : ';' ∉ p.path.data) :
    urlparse (urlunparse p) ("") = .ok p := by
  obtain ⟨hS, hN, hNok, hP, hR, hQ, hshape, hRs⟩ := hwf
  by_cases hRne : p.params.data = []
  · have hu : (urlunparse p).data =
        (if p.scheme.data ≠ [] then p.scheme.data ++ [':'] else []) ++
        '/' :: '/' :: ((p.netloc.data ++ ('/' :: t)) ++
          (if p.query.data ≠ [] then '?' :: p.query.data else [])) := by
      rw [urlunparse_data p t hpath hnl, hRne, hfrag, hpath]
      simp
    have hUc' : ∀ c ∈ '/' :: t, c ≠ '#' ∧ c ≠ '?' ∧ isUnsafeByte c = false := by
      intro c hc
      rw [← hpath] at hc
      exact hP c hc
    have hsplit := urlsplit_parts p.scheme.data p.netloc.data t p.query.data hS hN hNok
      hUc' hQ (urlunparse p) hu
    unfold urlparse
    rw [hsplit]
    dsimp only
    split
    next hcond =>
      exact absurd (show ';' ∈ p.path.data from by rw [hpath]; exact hcond.2) hsemi
    next hcond =>
      refine congrArg Except.ok ?_
      have h1 : String.mk ('/' :: t) = p.path := by rw [← hpath]
      have h2 : ("" : String) = p.params := String.ext (by rw [hRne])
      have h3 : String.mk ([] : List Char) = p.fragment := String.ext (by rw [hfrag])
      rw [h1, h2, h3]
  · have hu : (urlunparse p).data =
        (if p.scheme.data ≠ [] then p.scheme.data ++ [':'] else []) ++
        '/' :: '/' :: ((p.netloc.data ++ ('/' :: (t ++ ';' :: p.params.data))) ++
          (if p.query.data ≠ [] then '?' :: p.query.data else [])) := by
      rw [urlunparse_data p t hpath hnl, hfrag, hpath, if_pos hRne]
      simp
    have hUc' : ∀ c ∈ '/' :: (t ++ ';' :: p.params.data),
        c ≠ '#' ∧ c ≠ '?' ∧ isUnsafeByte c = false := by
      intro c hc
      rcases List.mem_cons.1 hc with rfl | hc2
      · exact ⟨by decide, by decide, by decide⟩
      rcases List.mem_append.1 hc2 with h3 | h4
      · exact hP c (by rw [hpath]; exact List.mem_cons_of_mem _ h3)
      rcases List.mem_cons.1 h4 with rfl | h5
      · exact ⟨by decide, by decide, by decide⟩
      · obtain ⟨ha, hb, _, hd⟩ := hR c h5
        exact ⟨ha, hb, hd⟩
    have hsplit := urlsplit_parts p.scheme.data p.netloc.data (t ++ ';' :: p.params.data)
      p.query.data hS hN hNok hUc' hQ (urlunparse p) hu
    unfold urlparse
    rw [hsplit]
    dsimp only
    split
    next hcond =>
      have hsp : splitParamsCore ('/' :: (t ++ ';' :: p.params.data)) =
          (p.path.data, p.params.data) := by
        have hjoin : '/' :: (t ++ ';' :: p.params.data) =
            p.path.data ++ ';' :: p.params.data := by
          rw [hpath]
          rfl
        rw [hjoin]
        refine splitParamsCore_join hsemi ?_ ?_
        · rw [hpath]
          exact List.mem_cons_self _ _
        · intro hm
          exact (hR '/' hm).2.2.1 rfl
      rw [hsp]
      refine congrArg Except.ok ?_
      have h3 : String.mk ([] : List Char) = p.fragment := String.ext (by rw [hfrag])
      rw [h3]
    next hcond =>
      exfalso
      apply hcond
      constructor
      · exact hRs hRne
      · exact List.mem_cons_of_mem _ (List.mem_append.2 (Or.inr (List.mem_cons_self _ _)))

theorem urlunsplit_decomp (r : SplitResult) :
    ∃ pre,
      (urlunsplit r).data =
        pre ++ (if r.query.data ≠ [] then '?' :: r.query.data else []) ++
          (if r.fragment.data ≠ [] then '#' :: r.fragment.data else []) ∧
      (∀ c ∈ pre, c ∈ r.scheme.data ∨ c ∈ r.netloc.data ∨ c ∈ r.path.data ∨
        c = ':' ∨ c = '/') ∧
      (r.scheme.data ≠ [] → ∃ s2, pre = r.scheme.data ++ ':' :: s2) ∧
      (r.netloc.data ≠ [] → ∃ a b, pre = a ++ '/' :: '/' :: (r.netloc.data ++ b)) := by
  refine ⟨(if r.scheme.data ≠ [] then r.scheme.data ++ [':'] else []) ++
    (if (r.netloc.data ≠ [] ∨ (r.scheme.data ≠ [] ∧ r.scheme ∈ uses_netloc ∧
        r.path.data.take 2 ≠ ['/', '/'])) then
      '/' :: '/' :: (r.netloc.data ++
        (if r.path.data ≠ [] ∧ r.path.data.take 1 ≠ ['/'] then '/' :: r.path.data
          else r.path.data))
    else r.path.data), ?_, ?_, ?_, ?_⟩
  · by_cases hs : r.scheme.data = [] <;> by_cases hq : r.query.data = [] <;>
      by_cases hf : r.fragment.data = [] <;>
      simp [urlunsplit, hs, hq, hf, List.append_assoc]
  · intro c hc
    rcases List.mem_append.1 hc with h1 | h2
    · by_cases hs : r.scheme.data ≠ []
      · rw [if_pos hs] at h1
        rcases List.mem_append.1 h1 with h3 | h4
        · exact Or.inl h3
        · have hce : c = ':' := by simpa using h4
          exact Or.inr (Or.inr (Or.inr (Or.inl hce)))
      · rw [if_neg hs] at h1
        exact absurd h1 (List.not_mem_nil c)
    · by_cases hcond : (r.netloc.data ≠ [] ∨ (r.scheme.data ≠ [] ∧ r.scheme ∈ uses_netloc ∧
          r.path.data.take 2 ≠ ['/', '/']))
      · rw [if_pos hcond] at h2
        rcases List.mem_cons.1 h2 with rfl | h3
        · exact Or.inr (Or.inr (Or.inr (Or.inr rfl)))
        rcases List.mem_cons.1 h3 with rfl | h4
        · exact Or.inr (Or.inr (Or.inr (Or.inr rfl)))
        rcases List.mem_append.1 h4 with h5 | h6
        · exact Or.inr (Or.inl h5)
        · by_cases hin : (r.path.data ≠ [] ∧ r.path.data.take 1 ≠ ['/'])
          · rw [if_pos hin] at h6
            rcases List.mem_cons.1 h6 with rfl | h7
            · exact Or.inr (Or.inr (Or.inr (Or.inr rfl)))
            · exact Or.inr (Or.inr (Or.inl h7))
          · rw [if_neg hin] at h6
            exact Or.inr (Or.inr (Or.inl h6))
      · rw [if_neg hcond] at h2
        exact Or.inr (Or.inr (Or.inl h2))
  · intro hs
    refine ⟨(if (r.netloc.data ≠ [] ∨ (r.scheme.data ≠ [] ∧ r.scheme ∈ uses_netloc ∧
        r.path.data.take 2 ≠ ['/', '/'])) then
        '/' :: '/' :: (r.netloc.data ++
          (if r.path.data ≠ [] ∧ r.path.data.take 1 ≠ ['/'] then '/' :: r.path.data
            else r.path.data))
      else r.path.data), ?_⟩
    rw [if_pos hs]
    simp
  · intro hn
    refine ⟨(if r.scheme.data ≠ [] then r.scheme.data ++ [':'] else []),
      (if r.path.data ≠ [] ∧ r.path.data.take 1 ≠ ['/'] then '/' :: r.path.data
        else r.path.data), ?_⟩
    rw [if_pos (Or.inl hn)]

/-- Claim C8: the crawler's normalize maps "https://x.com",
"https://x.com/" and "https://x.com/#section" all to "https://x.com/",
and maps "https://x.com/path/" and "https://x.com/path" both to
"https://x.com/path". -/
theorem c8_normalize_examples :
    normalize_url ("https://x.com") = .ok ("https://x.com/") ∧
    normalize_url ("https://x.com/") = .ok ("https://x.com/") ∧
    normalize_url ("https://x.com/#section") = .ok ("https://x.com/") ∧
    normalize_url ("https://x.com/path/") = .ok ("https://x.com/path") ∧
    normalize_url ("https://x.com/path") = .ok ("https://x.com/path") := by
  decide

/-- Claim C2 is false as stated: on "https://x.com/a//" the code's
`rstrip("/")` removes BOTH trailing slashes (parsed path "/a//" becomes
"/a", so the result is "https://x.com/a"), while the claim's "at most one
trailing slash stripped" rule turns "/a//" into "/a/" and so demands
"https://x.com/a/". -/
theorem c2_counterexample :
    c2Statement ("https://x.com/a//") = false ∧
    normalize_url ("https://x.com/a//") = .ok ("https://x.com/a") ∧
    String.mk (specPathRule (String.data ("/a//"))) = "/a/" := by
  decide

/-- Claim C10 is false as stated: `normalize_url` is not idempotent. A
second pass re-splits the path's params: "https://x.com/a/;b/" normalizes
to "https://x.com/a/;b" and that normalizes again to "https://x.com/a;b".
Likewise an empty netloc in front of a "//"-led path collapses: "////a"
normalizes to "//a", which re-parses with netloc "a" and normalizes to
"//a/". -/
theorem c10_counterexample :
    normalize_url ("https://x.com/a/;b/") = .ok ("https://x.com/a/;b") ∧
    normalize_url ("https://x.com/a/;b") = .ok ("https://x.com/a;b") ∧
    (normalize_url ("https://x.com/a/;b/")).bind normalize_url ≠
      normalize_url ("https://x.com/a/;b/") ∧
    normalize_url ("////a") = .ok ("//a") ∧
    normalize_url ("//a") = .ok ("//a/") ∧
    (normalize_url ("////a")).bind normalize_url ≠ normalize_url ("////a") := by
  decide

/-- Claim C3 is violated by the code: a title element with no string
child makes `scrape_page` evaluate `None.strip()`, raising an
`AttributeError` that `except requests.RequestException` does not catch,
so the whole run aborts instead of producing a record; and an href that
`urljoin` cannot parse ("//[" has an invalid bracketed netloc) raises a
`ValueError` inside `get_links`, aborting extraction of the remaining
links of the page (and with it the run). -/
theorem c3_failing_evaluations :
    scrape_page envTitleless ("https://x.com/") = .error .attributeError ∧
    crawl_steps envTitleless ("https://x.com/") 1 = .error .attributeError ∧
    get_links (["//[", "/kept"]) ("https://x.com/") ("x.com") = .error .valueError := by
  decide

/-! ## Crawl-loop invariants -/

/-- Unfolding one link of the enqueue loop: the link is appended only when
it is in neither `visited` nor the live queue. -/
theorem enqueueNew_cons (v q : List String) (l : String) (ls : List String) :
    enqueueNew v q (l :: ls) =
      if l ∈ v ∨ l ∈ q then enqueueNew v q ls else enqueueNew v (q ++ [l]) ls := by
  by_cases h : l ∈ v ∨ l ∈ q <;> simp [enqueueNew, List.foldl_cons, h]

/-- Everything in the enqueued queue was already queued or is a new link
outside `visited`. -/
theorem mem_enqueueNew {v : List String} {x : String} :
    ∀ (ls q : List String), x ∈ enqueueNew v q ls → x ∈ q ∨ (x ∈ ls ∧ x ∉ v) := by
  intro ls
  induction ls with
  | nil => intro q h; exact Or.inl h
  | cons l ls ih =>
    intro q h
    rw [enqueueNew_cons] at h
    by_cases hc : l ∈ v ∨ l ∈ q
    · rw [if_pos hc] at h
      rcases ih q h with h' | h'
      · exact Or.inl h'
      · exact Or.inr ⟨List.mem_cons_of_mem _ h'.1, h'.2⟩
    · rw [if_neg hc] at h
      push_neg at hc
      rcases ih (q ++ [l]) h with h' | h'
      · rcases List.mem_append.1 h' with h'' | h''
        · exact Or.inl h''
        · have hx : x = l := by simpa using h''
          subst hx
          exact Or.inr ⟨List.mem_cons_self _ _, hc.1⟩
      · exact Or.inr ⟨List.mem_cons_of_mem _ h'.1, h'.2⟩

/-- The enqueue loop preserves "no duplicates and disjoint from
`visited`". -/
theorem enqueueNew_invariant {v : List String} :
    ∀ (ls q : List String), q.Nodup → (∀ u ∈ q, u ∉ v) →
      (enqueueNew v q ls).Nodup ∧ ∀ u ∈ enqueueNew v q ls, u ∉ v := by
  intro ls
  induction ls with
  | nil => intro q h1 h2; exact ⟨h1, h2⟩
  | cons l ls ih =>
    intro q h1 h2
    rw [enqueueNew_cons]
    by_cases hc : l ∈ v ∨ l ∈ q
    · rw [if_pos hc]; exact ih q h1 h2
    · rw [if_neg hc]
      push_neg at hc
      refine ih (q ++ [l]) ?_ ?_
      · rw [List.nodup_append]
        exact ⟨h1, List.nodup_singleton l, by simpa [List.disjoint_singleton] using hc.2⟩
      · intro u hu
        rcases List.mem_append.1 hu with h' | h'
        · exact h2 u h'
        · have hx : u = l := by simpa using h'
          subst hx; exact hc.1

/-- A successful `scrape_page` always returns the six-field `pageDict`
for the fetched URL. -/
theorem scrape_page_ok_shape {env : Env} {url : String} {d : PyDict}
    (h : scrape_page env url = .ok (some d)) :
    ∃ title status ct html sa, d = pageDict url title status ct html sa := by
  unfold scrape_page at h
  split at h
  · simp at h
  · split at h
    · simp at h
    · split at h
      · simp at h
      · split at h
        · exact ⟨_, _, _, _, _, by simpa using h.symm⟩
        · simp at h
        · exact ⟨_, _, _, _, _, by simpa using h.symm⟩

/-- Dropping the `html` key from a `pageDict`. -/
theorem filter_html_pageDict (url title : String) (status : Nat) (ct html sa : String) :
    (pageDict url title status ct html sa).filter (fun kv => kv.1 ≠ "html") =
      [("url", PyVal.str url), ("title", PyVal.str title),
       ("status_code", PyVal.intv status), ("content_type", PyVal.str ct),
       ("scraped_at", PyVal.str sa)] := rfl

/-- The `url` field of a shaped record. -/
theorem recordUrl_shape (url title : String) (status : Nat) (ct sa : String)
    (ext : List String) :
    recordUrl [("url", PyVal.str url), ("title", PyVal.str title),
       ("status_code", PyVal.intv status), ("content_type", PyVal.str ct),
       ("scraped_at", PyVal.str sa), ("external_links", PyVal.strList ext)] =
      some (PyVal.str url) := rfl

/-- One loop iteration preserves the master invariant. -/
theorem stateInv_step {env : Env} {b : String} {s s' : CrawlState}
    (hs : StateInv s) (h : crawl_step env b s = .ok s') : StateInv s' := by
  obtain ⟨hnd, hdisj, hrec, hmap, hlen⟩ := hs
  unfold crawl_step at h
  split at h
  next hq =>
    cases h
    exact ⟨hnd, hdisj, hrec, hmap, hlen⟩
  next url rest hq =>
    rw [hq] at hnd hdisj
    split at h
    next hv =>
      cases h
      refine ⟨(List.nodup_cons.1 hnd).2, ?_, hrec, hmap, hlen⟩
      intro u hu
      exact hdisj u (List.mem_cons_of_mem _ hu)
    next hv =>
      split at h
      · simp at h
      next hsc =>
        cases h
        rw [List.insert_of_not_mem hv]
        refine ⟨(List.nodup_cons.1 hnd).2, ?_, ?_, hmap, ?_⟩
        · intro u hu
          simp only [List.mem_cons]
          push_neg
          exact ⟨fun hx => (List.nodup_cons.1 hnd).1 (hx ▸ hu),
                 hdisj u (List.mem_cons_of_mem _ hu)⟩
        · intro r hr
          obtain ⟨u', hsh, hu'⟩ := hrec r hr
          exact ⟨u', hsh, List.mem_cons_of_mem _ hu'⟩
        · exact Nat.le_succ_of_le hlen
      next data hsc =>
        split at h
        · simp at h
        next links hl =>
          cases h
          rw [List.insert_of_not_mem hv]
          obtain ⟨title, status, ct, html, sa, hd⟩ := scrape_page_ok_shape hsc
          subst hd
          rw [filter_html_pageDict]
          have hndr : rest.Nodup := (List.nodup_cons.1 hnd).2
          have hdisjr : ∀ u ∈ rest, u ∉ url :: s.visited := by
            intro u hu
            simp only [List.mem_cons]
            push_neg
            exact ⟨fun hx => (List.nodup_cons.1 hnd).1 (hx ▸ hu),
                   hdisj u (List.mem_cons_of_mem _ hu)⟩
          obtain ⟨hq1, hq2⟩ := enqueueNew_invariant links.1 rest hndr hdisjr
          refine ⟨hq1, hq2, ?_, ?_, ?_⟩
          · intro r hr
            rcases List.mem_append.1 hr with hr' | hr'
            · obtain ⟨u', hsh, hu'⟩ := hrec r hr'
              exact ⟨u', hsh, List.mem_cons_of_mem _ hu'⟩
            · have hreq : r = [("url", PyVal.str url), ("title", PyVal.str title),
                ("status_code", PyVal.intv status), ("content_type", PyVal.str ct),
                ("scraped_at", PyVal.str sa),
                ("external_links", PyVal.strList (pySortedSet links.2))] := by
                simpa using hr'
              exact ⟨url, ⟨title, status, ct, sa, links.2, hreq⟩, List.mem_cons_self _ _⟩
          · rw [List.map_append, List.nodup_append]
            refine ⟨hmap, by simp, ?_⟩
            intro vv hvv hvv'
            have hvv2 : vv = recordUrl [("url", PyVal.str url), ("title", PyVal.str title),
                ("status_code", PyVal.intv status), ("content_type", PyVal.str ct),
                ("scraped_at", PyVal.str sa),
                ("external_links", PyVal.strList (pySortedSet links.2))] := by
              simpa using hvv'
            rw [recordUrl_shape] at hvv2
            obtain ⟨r, hr, hru⟩ := List.mem_map.1 hvv
            obtain ⟨u', hsh, hu'⟩ := hrec r hr
            obtain ⟨t', st', ct', sa', xs', hreq⟩ := hsh
            rw [hreq, recordUrl_shape] at hru
            rw [← hru] at hvv2
            have : u' = url := by simpa using hvv2
            exact hv (this ▸ hu')
          · simp only [List.length_append, List.length_cons, List.length_nil]
            omega

/-- Iterating preserves the master invariant. -/
theorem stateInv_stepN {env : Env} {b : String} :
    ∀ (n : Nat) {s : CrawlState}, StateInv s →
      exceptHolds StateInv (stepN env b n s) := by
  intro n
  induction n with
  | zero => intro s hs; exact hs
  | succ n ih =>
    intro s hs
    simp only [stepN]
    cases h : crawl_step env b s with
    | error e => trivial
    | ok s' => exact ih (stateInv_step hs h)

/-- The initial state satisfies the master invariant. -/
theorem stateInv_init {start b : String} {s0 : CrawlState}
    (h : crawl_init start = .ok (b, s0)) : StateInv s0 := by
  unfold crawl_init at h
  split at h
  · simp at h
  · split at h
    · simp at h
    · injection h with h2
      injection h2 with hb hs
      subst hs
      refine ⟨List.nodup_singleton _, ?_, ?_, List.nodup_nil, Nat.le_refl 0⟩
      · intro u _
        exact List.not_mem_nil u
      · intro r hr
        exact absurd hr (List.not_mem_nil r)

/-- Every state reachable in any run satisfies the master invariant. -/
theorem stateInv_crawl_steps (env : Env) (start : String) (n : Nat) :
    exceptHolds StateInv (crawl_steps env start n) := by
  unfold crawl_steps
  cases h : crawl_init start with
  | error e => trivial
  | ok r =>
    obtain ⟨b, s0⟩ := r
    exact stateInv_stepN n (stateInv_init h)

/-- Composition of iteration counts. -/
theorem stepN_add (env : Env) (b : String) :
    ∀ (n m : Nat) (s : CrawlState),
      stepN env b (n + m) s =
        match stepN env b n s with
        | .error e => .error e
        | .ok t => stepN env b m t := by
  intro n
  induction n with
  | zero => intro m s; simp [stepN, Nat.zero_add]
  | succ n ih =>
    intro m s
    have he : n + 1 + m = (n + m) + 1 := by omega
    rw [he]
    simp only [stepN]
    cases h : crawl_step env b s with
    | error e => rfl
    | ok s' => exact ih m s'

/-- Unfolding one loop iteration on a nonempty queue. -/
theorem crawl_step_cons (env : Env) (b : String) (v : List String) (url : String)
    (rest : List String) (res : List PyDict) :
    crawl_step env b ⟨v, url :: rest, res⟩ =
      if url ∈ v then .ok ⟨v, rest, res⟩
      else
        match scrape_page env url with
        | .error e => .error e
        | .ok none => .ok ⟨v.insert url, rest, res⟩
        | .ok (some data) =>
          match get_links (env.parse (lookupStr data ("html"))).hrefs url b with
          | .error e => .error e
          | .ok links =>
            .ok ⟨v.insert url, enqueueNew (v.insert url) rest links.1,
                 res ++ [data.filter (fun kv => kv.1 ≠ "html") ++
                   [("external_links", PyVal.strList (pySortedSet links.2))]]⟩ := rfl

/-- Once settled and off the queue, a URL stays settled and off the queue
for a single iteration. -/
theorem banned_step {env : Env} {b : String} {s s' : CrawlState} {url : String}
    (h : crawl_step env b s = .ok s') (h1 : url ∈ s.visited) (h2 : url ∉ s.queue) :
    url ∈ s'.visited ∧ url ∉ s'.queue := by
  unfold crawl_step at h
  split at h
  next hq =>
    cases h; exact ⟨h1, h2⟩
  next u rest hq =>
    rw [hq] at h2
    have hne : url ≠ u ∧ url ∉ rest := by
      constructor
      · intro hx; exact h2 (hx ▸ List.mem_cons_self _ _)
      · intro hx; exact h2 (List.mem_cons_of_mem _ hx)
    split at h
    next hv =>
      cases h; exact ⟨h1, hne.2⟩
    next hv =>
      split at h
      · simp at h
      next hsc =>
        cases h
        exact ⟨List.mem_insert_iff.2 (Or.inr h1), hne.2⟩
      next data hsc =>
        split at h
        · simp at h
        next links hl =>
          cases h
          refine ⟨List.mem_insert_iff.2 (Or.inr h1), fun hmem => ?_⟩
          rcases mem_enqueueNew links.1 rest hmem with h' | h'
          · exact hne.2 h'
          · exact h'.2 (List.mem_insert_iff.2 (Or.inr h1))

/-- Once settled and off the queue, a URL stays settled and off the queue
for the remainder of the run. -/
theorem banned_stepN {env : Env} {b : String} {url : String} :
    ∀ (m : Nat) {s : CrawlState}, url ∈ s.visited → url ∉ s.queue →
      exceptHolds (fun t => url ∈ t.visited ∧ url ∉ t.queue) (stepN env b m s) := by
  intro m
  induction m with
  | zero => intro s h1 h2; exact ⟨h1, h2⟩
  | succ m ih =>
    intro s h1 h2
    simp only [stepN]
    cases h : crawl_step env b s with
    | error e => trivial
    | ok s' =>
      obtain ⟨h1', h2'⟩ := banned_step h h1 h2
      exact ih h1' h2'

/-- Sortedness of `sorted(set(xs))`. -/
theorem pySortedSet_sorted (xs : List String) :
    List.Sorted (fun a b => a < b) (pySortedSet xs) := by
  have hs : List.Sorted (fun a b : String => a ≤ b) (pySortedSet xs) :=
    List.sorted_insertionSort _ _
  have hp : List.Perm (pySortedSet xs) xs.dedup := List.perm_insertionSort _ _
  have hn : (pySortedSet xs).Nodup := hp.nodup_iff.2 (List.nodup_dedup xs)
  exact hs.lt_of_le hn

/-- Membership in `sorted(set(xs))` is membership in `xs`. -/
theorem pySortedSet_mem (xs : List String) (x : String) :
    x ∈ pySortedSet xs ↔ x ∈ xs := by
  unfold pySortedSet
  rw [(List.perm_insertionSort _ _).mem_iff, List.mem_dedup]

/-! ## The crawl-loop claims -/

/-- Claim C1: at every point of every run, the frontier queue has no
duplicate entries and is disjoint from the visited set; and (second
conjunct) one unfolding of the enqueue loop shows an internal link is
appended only when it is in neither `visited` nor the live queue. -/
theorem c1_frontier_invariant :
    (∀ (env : Env) (start : String) (n : Nat),
      exceptHolds (fun s => s.queue.Nodup ∧ ∀ u ∈ s.queue, u ∉ s.visited)
        (crawl_steps env start n)) ∧
    (∀ (v q : List String) (l : String) (ls : List String),
      enqueueNew v q (l :: ls) =
        if l ∈ v ∨ l ∈ q then enqueueNew v q ls else enqueueNew v (q ++ [l]) ls) := by
  constructor
  · intro env start n
    have h := stateInv_crawl_steps env start n
    cases hc : crawl_steps env start n with
    | error e => trivial
    | ok s =>
      rw [hc] at h
      exact ⟨h.1, h.2.1⟩
  · exact enqueueNew_cons

/-- Claim C5: at every point of every run (hence for the returned
results), no two records share a `url` field and there are never more
records than visited URLs. -/
theorem c5_no_duplicate_results (env : Env) (start : String) (n : Nat) :
    exceptHolds (fun s => (s.results.map recordUrl).Nodup ∧
      s.results.length ≤ s.visited.length) (crawl_steps env start n) := by
  have h := stateInv_crawl_steps env start n
  cases hc : crawl_steps env start n with
  | error e => trivial
  | ok s =>
    rw [hc] at h
    exact ⟨h.2.2.2.1, h.2.2.2.2⟩

/-- Claim C9: every record ever appended has exactly the six fields url,
title, status_code, content_type, scraped_at, external_links (in that
order), the raw HTML body is not retained, and the `external_links` value
is a sorted deduplicated list (strictly sorted; with the same members as
the extracted externals). -/
theorem c9_record_shape :
    (∀ (env : Env) (start : String) (n : Nat),
      exceptHolds (fun s => ∀ r ∈ s.results,
        (∃ url, recordShapeAt r url) ∧ ("html" : String) ∉ r.map Prod.fst)
        (crawl_steps env start n)) ∧
    (∀ xs : List String, List.Sorted (fun a b => a < b) (pySortedSet xs) ∧
      ∀ x : String, x ∈ pySortedSet xs ↔ x ∈ xs) := by
  constructor
  · intro env start n
    have h := stateInv_crawl_steps env start n
    cases hc : crawl_steps env start n with
    | error e => trivial
    | ok s =>
      rw [hc] at h
      intro r hr
      obtain ⟨url, hsh, _⟩ := h.2.2.1 r hr
      refine ⟨⟨url, hsh⟩, ?_⟩
      obtain ⟨t, st, ct, sa, xs, hreq⟩ := hsh
      rw [hreq]
      show ("html" : String) ∉ ["url", "title", "status_code", "content_type",
        "scraped_at", "external_links"]
      decide
  · intro xs
    exact ⟨pySortedSet_sorted xs, pySortedSet_mem xs⟩

/-- Claim C4: when a dequeued unvisited URL's scrape fails (fetch error,
4xx/5xx, or non-HTML content type — all the `scrape_page = None` cases),
the next state has that URL in `visited`, the results unchanged (no
record), and the queue advanced to the next frontier item; and at every
later point of the run the URL is in `visited` and never again in the
queue (no retry). -/
theorem c4_failed_fetch_no_retry (env : Env) (start b : String)
    (s0 s : CrawlState) (n : Nat) (url : String) (rest : List String)
    (hinit : crawl_init start = .ok (b, s0))
    (hsteps : stepN env b n s0 = .ok s)
    (hq : s.queue = url :: rest)
    (hv : url ∉ s.visited)
    (hscrape : scrape_page env url = .ok none) :
    crawl_step env b s = .ok ⟨url :: s.visited, rest, s.results⟩ ∧
    crawl_steps env start (n + 1) = .ok ⟨url :: s.visited, rest, s.results⟩ ∧
    ∀ m : Nat, exceptHolds (fun t => url ∈ t.visited ∧ url ∉ t.queue)
      (crawl_steps env start (n + 1 + m)) := by
  have hstep : crawl_step env b s = .ok ⟨url :: s.visited, rest, s.results⟩ := by
    have e1 : crawl_step env b s = crawl_step env b ⟨s.visited, url :: rest, s.results⟩ := by
      rw [← hq]
    rw [e1, crawl_step_cons, if_neg hv, hscrape, List.insert_of_not_mem hv]
  have hsteps1 : stepN env b (n + 1) s0 = .ok ⟨url :: s.visited, rest, s.results⟩ := by
    rw [stepN_add env b n 1 s0, hsteps]
    simp only [stepN]
    rw [hstep]
  have hcs : ∀ k, crawl_steps env start k = stepN env b k s0 := by
    intro k
    unfold crawl_steps
    rw [hinit]
  refine ⟨hstep, by rw [hcs, hsteps1], ?_⟩
  intro m
  rw [hcs, stepN_add env b (n + 1) m s0, hsteps1]
  have hsi : StateInv s := by
    have h := @stateInv_stepN env b n s0 (stateInv_init hinit)
    rw [hsteps] at h
    exact h
  have hnr : url ∉ rest := by
    have := hsi.1
    rw [hq] at this
    exact (List.nodup_cons.1 this).1
  exact banned_stepN m (List.mem_cons_self _ _) hnr

/-- Witness for claim C4 at a concrete run: one URL whose fetch raises is
settled after one step with no record, and remains settled and unqueued
later. -/
theorem c4_witness :
    crawl_steps envAllFail ("https://x.com/") 1 = .ok ⟨["https://x.com/"], [], []⟩ ∧
    exceptHolds
      (fun t => ("https://x.com/" : String) ∈ t.visited ∧
        ("https://x.com/" : String) ∉ t.queue)
      (crawl_steps envAllFail ("https://x.com/") 2) := by
  have h := c4_failed_fetch_no_retry envAllFail ("https://x.com/") ("x.com")
    ⟨[], ["https://x.com/"], []⟩ ⟨[], ["https://x.com/"], []⟩ 0 ("https://x.com/") []
    (by decide) (by decide) (by decide) (by decide) (by decide)
  exact ⟨h.2.1, h.2.2 1⟩

/-- Claim C7: `is_internal` returns (modulo a propagated parse error)
exactly the test "netloc equals the base netloc or netloc is empty"; in
particular the spec's three examples hold and a differing subdomain is
external. -/
theorem c7_is_internal_characterization :
    (∀ url base_netloc : String,
      is_internal url base_netloc =
        (urlparse url ("")).map (fun p => decide (p.netloc = base_netloc ∨ p.netloc = ""))) ∧
    is_internal ("https://x.com/a") ("x.com") = .ok true ∧
    is_internal ("https://sub.x.com/a") ("x.com") = .ok false ∧
    is_internal ("/relative") ("x.com") = .ok true := by
  refine ⟨fun url b => ?_, by decide, by decide, by decide⟩
  unfold is_internal
  cases urlparse url ("") <;> rfl

/-- Claim C6: link extraction (1) emits nothing for an anchor whose
trimmed href starts with "#", "mailto:", "tel:" or "javascript:" — (2) in
particular for the spec's three example hrefs; (3) discards a resolved
URL whose scheme is neither http nor https; (4) appends the normalized
resolution to the internal list when `is_internal` holds, and (5) the raw
absolute resolution to the external list otherwise — in document order
(head first); and (6) the three example hrefs produce zero entries. -/
theorem c6_get_links_pipeline :
    (∀ (h : String) (rest : List String) (page base : String),
      isSkippedHref (pyStrip h) = true →
      get_links (h :: rest) page base = get_links rest page base) ∧
    (isSkippedHref (pyStrip ("#top")) = true ∧
     isSkippedHref (pyStrip ("mailto:a@b.com")) = true ∧
     isSkippedHref (pyStrip ("tel:123")) = true ∧
     isSkippedHref (pyStrip ("javascript:void(0)")) = true) ∧
    (∀ (h : String) (rest : List String) (page base abs : String) (pa : ParseResult),
      isSkippedHref (pyStrip h) = false →
      urljoin page (pyStrip h) = .ok abs →
      urlparse abs ("") = .ok pa →
      pa.scheme ≠ "http" → pa.scheme ≠ "https" →
      get_links (h :: rest) page base = get_links rest page base) ∧
    (∀ (h : String) (rest : List String) (page base abs : String) (pa : ParseResult)
       (n : String) (i x : List String),
      isSkippedHref (pyStrip h) = false →
      urljoin page (pyStrip h) = .ok abs →
      urlparse abs ("") = .ok pa →
      (pa.scheme = "http" ∨ pa.scheme = "https") →
      is_internal abs base = .ok true →
      normalize_url abs = .ok n →
      get_links rest page base = .ok (i, x) →
      get_links (h :: rest) page base = .ok (n :: i, x)) ∧
    (∀ (h : String) (rest : List String) (page base abs : String) (pa : ParseResult)
       (i x : List String),
      isSkippedHref (pyStrip h) = false →
      urljoin page (pyStrip h) = .ok abs →
      urlparse abs ("") = .ok pa →
      (pa.scheme = "http" ∨ pa.scheme = "https") →
      is_internal abs base = .ok false →
      get_links rest page base = .ok (i, x) →
      get_links (h :: rest) page base = .ok (i, abs :: x)) ∧
    get_links (["#top", "mailto:a@b.com", "javascript:void(0)"]) ("https://x.com/")
      ("x.com") = .ok ([], []) := by
  have hns : ∀ (pa : ParseResult), (pa.scheme = "http" ∨ pa.scheme = "https") →
      ¬(pa.scheme ≠ "http" ∧ pa.scheme ≠ "https") := by
    intro pa hd hc
    rcases hd with hd | hd
    · exact hc.1 hd
    · exact hc.2 hd
  refine ⟨?_, by decide, ?_, ?_, ?_, by decide⟩
  · intro h rest page base h1
    simp only [get_links, h1]
    rfl
  · intro h rest page base abs pa h1 h2 h3 h4 h5
    simp only [get_links, h1, h2, h3]
    simp [h4, h5]
  · intro h rest page base abs pa n i x h1 h2 h3 h4 h5 h6 h7
    simp only [get_links, h1, h2, h3, h5, h6, h7]
    simp [hns pa h4]
  · intro h rest page base abs pa i x h1 h2 h3 h4 h5 h6
    simp only [get_links, h1, h2, h3, h5, h6]
    simp [hns pa h4]

/-- Witness for claim C6: the skip rule applied at "#top", and the
internal-classification rule applied at href "/a" on page
"https://x.com/" with base "x.com". -/
theorem c6_witness :
    get_links (["#top"]) ("https://x.com/") ("x.com") =
      get_links ([]) ("https://x.com/") ("x.com") ∧
    get_links (["/a"]) ("https://x.com/") ("x.com") =
      .ok (["https://x.com/a"], []) := by
  constructor
  · exact c6_get_links_pipeline.1 ("#top") [] ("https://x.com/") ("x.com") (by decide)
  · exact c6_get_links_pipeline.2.2.2.1 ("/a") [] ("https://x.com/") ("x.com")
      ("https://x.com/a") ⟨"https", "x.com", "/a", "", "", ""⟩ ("https://x.com/a") [] []
      (by decide) (by decide) (by decide) (by decide) (by decide) (by decide) (by decide)

/-- Claim C2 (amended): whenever `urlparse` succeeds on the input,
`normalize_url` reassembles the parsed scheme, netloc, params and query
unchanged around the rewritten path and drops the fragment; the rewritten
path is the parsed path with ALL trailing slashes stripped (exactly the
maximal trailing run of slashes is removed), or "/" when that stripping
leaves nothing; observably, the output contains no '#', starts with
"scheme:" when a scheme was parsed, contains "//netloc" when a netloc was
parsed, and ends with "?query" after a '?'-free prefix when a query was
parsed (and contains no '?' when the query is empty). -/
theorem c2_amended (u : String) (p : ParseResult) (h : urlparse u ("") = .ok p) :
    normalize_url u =
      .ok (urlunparse ⟨p.scheme, p.netloc, String.mk (rstripSlashOrRoot p.path.data),
        p.params, p.query, ""⟩) ∧
    (∃ k, p.path.data = rstripSlash p.path.data ++ List.replicate k '/') ∧
    (rstripSlash p.path.data = [] ∨
      ∃ l2 c, rstripSlash p.path.data = l2 ++ [c] ∧ c ≠ '/') ∧
    (rstripSlash p.path.data = [] → rstripSlashOrRoot p.path.data = ['/']) ∧
    (rstripSlash p.path.data ≠ [] →
      rstripSlashOrRoot p.path.data = rstripSlash p.path.data) ∧
    ∀ v, normalize_url u = .ok v →
      '#' ∉ v.data ∧
      (p.scheme.data ≠ [] → ∃ s2, v.data = p.scheme.data ++ ':' :: s2) ∧
      (p.netloc.data ≠ [] → ∃ a b, v.data = a ++ '/' :: '/' :: (p.netloc.data ++ b)) ∧
      (p.query.data ≠ [] → ∃ a, v.data = a ++ '?' :: p.query.data ∧ '?' ∉ a) ∧
      (p.query.data = [] → '?' ∉ v.data) := by
  obtain ⟨hS, hN, hNok, hP, hR, hQ, hshape, hRs⟩ := urlparse_ok_wf h
  refine ⟨normalize_url_eq h, rstripSlash_spec _, rstripSlash_last_ne _, ?_, ?_, ?_⟩
  · intro h0
    unfold rstripSlashOrRoot
    rw [h0]
  · intro h0
    unfold rstripSlashOrRoot
    cases he : rstripSlash p.path.data with
    | nil => exact absurd he h0
    | cons y ys => rfl
  · intro v hv
    have he2 := (normalize_url_eq h).symm.trans hv
    injection he2 with he3
    subst he3
    have hun : urlunparse ⟨p.scheme, p.netloc,
        String.mk (rstripSlashOrRoot p.path.data), p.params, p.query, ""⟩ =
      urlunsplit ⟨p.scheme, p.netloc,
        String.mk (if p.params.data ≠ [] then
          rstripSlashOrRoot p.path.data ++ ';' :: p.params.data
        else rstripSlashOrRoot p.path.data), p.query, ""⟩ := rfl
    obtain ⟨pre, hd, hchars, hschemePre, hnetlocPre⟩ :=
      urlunsplit_decomp ⟨p.scheme, p.netloc,
        String.mk (if p.params.data ≠ [] then
          rstripSlashOrRoot p.path.data ++ ';' :: p.params.data
        else rstripSlashOrRoot p.path.data), p.query, ""⟩
    dsimp only at hd hchars hschemePre hnetlocPre
    rw [if_neg (show ¬(([] : List Char) ≠ []) from fun hx => hx rfl),
      List.append_nil] at hd
    have hvd : (urlunparse ⟨p.scheme, p.netloc,
        String.mk (rstripSlashOrRoot p.path.data), p.params, p.query, ""⟩).data =
        pre ++ (if p.query.data ≠ [] then '?' :: p.query.data else []) := by
      rw [hun]
      exact hd
    have hPl : ∀ c ∈ (if p.params.data ≠ [] then
        rstripSlashOrRoot p.path.data ++ ';' :: p.params.data
      else rstripSlashOrRoot p.path.data), c ≠ '#' ∧ c ≠ '?' := by
      intro c hc
      split at hc
      · rcases List.mem_append.1 hc with h1 | h2
        · rcases mem_rstripSlashOrRoot h1 with hmem | rfl
          · exact ⟨(hP c hmem).1, (hP c hmem).2.1⟩
          · exact ⟨by decide, by decide⟩
        · rcases List.mem_cons.1 h2 with rfl | h3
          · exact ⟨by decide, by decide⟩
          · exact ⟨(hR c h3).1, (hR c h3).2.1⟩
      · rcases mem_rstripSlashOrRoot hc with hmem | rfl
        · exact ⟨(hP c hmem).1, (hP c hmem).2.1⟩
        · exact ⟨by decide, by decide⟩
    have hschemeAll : ∀ c ∈ p.scheme.data, isSchemeChar c = true := by
      rcases hS with h0 | ⟨c0, t1, he, _, hall, _⟩
      · rw [h0]
        intro c hc
        exact absurd hc (List.not_mem_nil c)
      · rw [he]
        intro c hc
        exact List.all_eq_true.1 hall c hc
    have hpreH : ∀ c ∈ pre, c ≠ '#' ∧ c ≠ '?' := by
      intro c hc
      rcases hchars c hc with h1 | h2 | h3 | rfl | rfl
      · exact ⟨(schemeChar_facts (hschemeAll c h1)).2.1,
          (schemeChar_facts (hschemeAll c h1)).2.2.1⟩
      · refine ⟨fun hce => (hN c h2).1 ?_, fun hce => (hN c h2).1 ?_⟩
        · rw [hce]
          decide
        · rw [hce]
          decide
      · exact hPl c h3
      · exact ⟨by decide, by decide⟩
      · exact ⟨by decide, by decide⟩
    refine ⟨?_, ?_, ?_, ?_, ?_⟩
    · intro hm
      rw [hvd] at hm
      rcases List.mem_append.1 hm with h1 | h2
      · exact (hpreH _ h1).1 rfl
      · split at h2
        · rcases List.mem_cons.1 h2 with he | h3
          · exact absurd he (by decide)
          · exact (hQ _ h3).1 rfl
        · exact absurd h2 (List.not_mem_nil _)
    · intro hs
      obtain ⟨s2, hpre⟩ := hschemePre hs
      refine ⟨s2 ++ (if p.query.data ≠ [] then '?' :: p.query.data else []), ?_⟩
      rw [hvd, hpre]
      simp
    · intro hn
      obtain ⟨a, b, hpre⟩ := hnetlocPre hn
      refine ⟨a, b ++ (if p.query.data ≠ [] then '?' :: p.query.data else []), ?_⟩
      rw [hvd, hpre]
      simp
    · intro hq
      refine ⟨pre, ?_, fun hm => (hpreH '?' hm).2 rfl⟩
      rw [hvd, if_pos hq]
    · intro hq0 hm
      rw [hvd, if_neg (fun hx => hx hq0), List.append_nil] at hm
      exact (hpreH '?' hm).2 rfl

/-- Witness for the amended claim C2: the rule applied at
"http://h/p//?q", whose parsed path "/p//" loses both trailing slashes. -/
theorem c2_amended_witness :
    urlparse ("http://h/p//?q") ("") =
      .ok ⟨("http"), ("h"), ("/p//"), (""), ("q"), ("")⟩ ∧
    (normalize_url ("http://h/p//?q") =
      .ok (urlunparse ⟨("http"), ("h"),
        String.mk (rstripSlashOrRoot ("/p//" : String).data), (""), ("q"), ("")⟩) ∧
    (∃ k, ("/p//" : String).data =
      rstripSlash ("/p//" : String).data ++ List.replicate k '/') ∧
    (rstripSlash ("/p//" : String).data = [] ∨
      ∃ l2 c, rstripSlash ("/p//" : String).data = l2 ++ [c] ∧ c ≠ '/') ∧
    (rstripSlash ("/p//" : String).data = [] →
      rstripSlashOrRoot ("/p//" : String).data = ['/']) ∧
    (rstripSlash ("/p//" : String).data ≠ [] →
      rstripSlashOrRoot ("/p//" : String).data = rstripSlash ("/p//" : String).data) ∧
    ∀ v, normalize_url ("http://h/p//?q") = .ok v →
      '#' ∉ v.data ∧
      (("http" : String).data ≠ [] → ∃ s2, v.data = ("http" : String).data ++ ':' :: s2) ∧
      (("h" : String).data ≠ [] →
        ∃ a b, v.data = a ++ '/' :: '/' :: (("h" : String).data ++ b)) ∧
      (("q" : String).data ≠ [] →
        ∃ a, v.data = a ++ '?' :: ("q" : String).data ∧ '?' ∉ a) ∧
      (("q" : String).data = [] → '?' ∉ v.data)) :=
  ⟨by decide,
    c2_amended ("http://h/p//?q") ⟨("http"), ("h"), ("/p//"), (""), ("q"), ("")⟩ (by decide)⟩

/-- Claim C10 (amended): `normalize_url` is idempotent on every URL whose
parsed netloc is nonempty and whose parsed path contains no semicolon:
normalizing such a URL succeeds, and normalizing the result returns the
result itself. -/
theorem c10_amended (u : String) (p : ParseResult)
    (h : urlparse u ("") = .ok p) (hnl : p.netloc.data ≠ [])
    (hsemi : ';' ∉ p.path.data) :
    ∃ v, normalize_url u = .ok v ∧ normalize_url v = .ok v := by
  obtain ⟨hS, hN, hNok, hP, hR, hQ, hshape, hRs⟩ := urlparse_ok_wf h
  obtain ⟨t', ht'⟩ := rstripSlashOrRoot_head p.path.data (hshape hnl)
  refine ⟨urlunparse ⟨p.scheme, p.netloc, String.mk (rstripSlashOrRoot p.path.data),
    p.params, p.query, ""⟩, normalize_url_eq h, ?_⟩
  have hwfq : ParsedWF ⟨p.scheme, p.netloc,
      String.mk (rstripSlashOrRoot p.path.data), p.params, p.query, ""⟩ := by
    refine ⟨hS, hN, hNok, ?_, hR, hQ, ?_, hRs⟩
    · intro c hc
      rcases mem_rstripSlashOrRoot hc with hm | rfl
      · exact hP c hm
      · exact ⟨by decide, by decide, by decide⟩
    · intro _
      exact Or.inr ⟨t', ht'⟩
  have hsemiq : ';' ∉ rstripSlashOrRoot p.path.data := by
    intro hm
    rcases mem_rstripSlashOrRoot hm with hm2 | he
    · exact hsemi hm2
    · exact absurd he (by decide)
  have hrt := urlparse_urlunparse_roundtrip ⟨p.scheme, p.netloc,
      String.mk (rstripSlashOrRoot p.path.data), p.params, p.query, ""⟩ t' hwfq rfl hnl
      ht' hsemiq
  rw [normalize_url_eq hrt]
  dsimp only
  rw [rstripSlashOrRoot_idem]

/-- Witness for the amended claim C10: idempotence at
"https://x.com/a//", whose canonical form is "https://x.com/a". -/
theorem c10_amended_witness :
    urlparse ("https://x.com/a//") ("") =
      .ok ⟨("https"), ("x.com"), ("/a//"), (""), (""), ("")⟩ ∧
    ("x.com" : String).data ≠ [] ∧
    ';' ∉ ("/a//" : String).data ∧
    ∃ v, normalize_url ("https://x.com/a//") = .ok v ∧ normalize_url v = .ok v :=
  ⟨by decide, by decide, by decide,
    c10_amended ("https://x.com/a//") ⟨("https"), ("x.com"), ("/a//"), (""), (""), ("")⟩
      (by decide) (by decide) (by decide)⟩

end Crawl
